import Mathlib

/-!
Shallow embedding of `scripts/codex_compatibility_sync.py`, a script that
maintains a markdown compatibility table (`docs/codex_compatibility.md`) from
JSON test-result artifacts, together with proofs of the specification claims.

Modelling conventions:
* Python `str` values are Lean `String`s; the Python string methods the script
  uses (`strip`, `lstrip("v")`, `strip("|")`, `split`, `lower`, `startswith`)
  are embedded as executable functions on the underlying `List Char`.
* Python dicts (which preserve insertion order; assignment to an existing key
  keeps its position, assignment to a fresh key appends) are embedded as
  association lists with `dinsert` / `dlookup`.
* A table file is its list of lines (`read_text().splitlines()` on the way in,
  `"\n".join(out) + "\n"` on the way out); a missing file is `none`.
* A JSON result file is `Option Artifact`: `none` stands for a file whose
  contents raise `json.JSONDecodeError`; `Artifact.platform` is the string
  `str(payload.get("platform", ""))`; `Artifact.results` is `none` when the
  `results` field is present but not a JSON object, and otherwise the list of
  key/value pairs (in object order) with the values already passed through
  `str`, a missing `results` field being `some []`.
* The row dicts the script builds always carry exactly the five platform keys
  plus `last_tested_utc`, so they are embedded as the structure `Row`;
  `Row.get`/`Row.setP` embed `dict.get`/`dict.__setitem__` on those keys.
* `main` is embedded as `run`: `Except.error msg` is `raise SystemExit(msg)`
  (a non-zero exit printing `msg`, reached before the table is read, merged or
  written), and `Except.ok rows` is a run that writes `write_table rows` and
  returns exit code `0`.  The current UTC timestamp string is a parameter.
-/

namespace CodexSync

/-- Python `str.strip()` / `str.lstrip` / `str.rstrip` on the character list:
drop characters satisfying `p` from the front. -/
def stripLeading (p : Char → Bool) (cs : List Char) : List Char :=
  cs.dropWhile p

/-- Drop characters satisfying `p` from the back. -/
def stripTrailing (p : Char → Bool) (cs : List Char) : List Char :=
  (cs.reverse.dropWhile p).reverse

/-- Drop characters satisfying `p` from both ends (Python `str.strip(chars)`). -/
def stripBoth (p : Char → Bool) (cs : List Char) : List Char :=
  stripTrailing p (cs.dropWhile p)

/-- Python `s.strip()` (default whitespace stripping). -/
def pyStrip (s : String) : String :=
  ⟨stripBoth (fun c => c.isWhitespace) s.data⟩

/-- Python `s.strip("|")`. -/
def pyStripPipes (s : String) : String :=
  ⟨stripBoth (fun c => c == '|') s.data⟩

/-- Python `s.lstrip("v")`. -/
def pyLStripV (s : String) : String :=
  ⟨s.data.dropWhile (fun c => c == 'v')⟩

/-- Python `s.lower()` (the script only ever lowercases ASCII statuses). -/
def pyLower (s : String) : String :=
  ⟨s.data.map Char.toLower⟩

/-- `normalize_version` from the script: `v.strip().lstrip("v")`. -/
def normalize_version (v : String) : String :=
  pyLStripV (pyStrip v)

/-- Python `s.split(sep)` for a one-character separator, on character lists:
always returns at least one (possibly empty) segment. -/
def splitOnChar (sep : Char) : List Char → List (List Char)
  | [] => [[]]
  | c :: rest =>
    if c = sep then [] :: splitOnChar sep rest
    else
      match splitOnChar sep rest with
      | [] => [[c]]
      | g :: gs => (c :: g) :: gs

/-- Python `s.split(sep)` for a one-character separator. -/
def pySplit (sep : Char) (s : String) : List String :=
  (splitOnChar sep s.data).map fun g => ⟨g⟩

/-- One `\d+` group of the version regex: nonempty, all digits. -/
def isDigitGroup (g : List Char) : Bool :=
  !g.isEmpty && g.all Char.isDigit

/-- `re.fullmatch(r"\d+(?:\.\d+)+", s)`: at least two dot-separated nonempty
digit groups (`splitOnChar` never returns `[]`, so the length test is exactly
"more than one group"). -/
def isVersionString (s : String) : Bool :=
  let gs := splitOnChar '.' s.data
  2 ≤ gs.length && gs.all isDigitGroup

/-- Association-list lookup embedding Python `dict.get` (first match; the
insertion discipline below keeps keys unique, as in a dict). -/
def dlookup {α : Type} (k : String) : List (String × α) → Option α
  | [] => none
  | (k', v) :: rest => if k' = k then some v else dlookup k rest

/-- Association-list insertion embedding Python `dict.__setitem__`: an
existing key keeps its position and gets the new value, a fresh key is
appended. -/
def dinsert {α : Type} (k : String) (v : α) : List (String × α) → List (String × α)
  | [] => [(k, v)]
  | (k', v') :: rest => if k' = k then (k, v) :: rest else (k', v') :: dinsert k v rest

/-- The keys of an association list, in order. -/
def keysOf {α : Type} (l : List (String × α)) : List String :=
  l.map Prod.fst

/-- `PLATFORMS` from the script. -/
def PLATFORMS : List String :=
  ["linux", "mac", "windows", "rockylinux8", "ubuntu20.04"]

/-- One parsed/merged table row: the five platform statuses plus the
timestamp column.  Every row dict the script stores has exactly these keys. -/
structure Row where
  linux : String
  mac : String
  windows : String
  rockylinux8 : String
  ubuntu20_04 : String
  last_tested_utc : String
  deriving Repr, DecidableEq

/-- Python `row_dict.get(k, d)` on a full row dict. -/
def Row.get (r : Row) (k : String) (d : String) : String :=
  if k = "linux" then r.linux
  else if k = "mac" then r.mac
  else if k = "windows" then r.windows
  else if k = "rockylinux8" then r.rockylinux8
  else if k = "ubuntu20.04" then r.ubuntu20_04
  else if k = "last_tested_utc" then r.last_tested_utc
  else d

/-- Python `row_dict[k] = v` on a full row dict, for the keys the script ever
assigns (`merged.update(...)` only ever sees platform keys, since
`load_results` filters platforms against `PLATFORMS`). -/
def Row.setP (r : Row) (k v : String) : Row :=
  if k = "linux" then { r with linux := v }
  else if k = "mac" then { r with mac := v }
  else if k = "windows" then { r with windows := v }
  else if k = "rockylinux8" then { r with rockylinux8 := v }
  else if k = "ubuntu20.04" then { r with ubuntu20_04 := v }
  else if k = "last_tested_utc" then { r with last_tested_utc := v }
  else r

/-- Python `x or "not-run"` for a string `x`. -/
def orNotRun (s : String) : String :=
  if s = "" then "not-run" else s

/-- `row.get(k, "")` on the zipped columns/parts dict of `parse_table`. -/
def cellOf (row : List (String × String)) (k : String) : String :=
  (dlookup k row).getD ""

/-- `row.get(platform, "").strip().lower() or "not-run"` from `parse_table`. -/
def parseStatus (row : List (String × String)) (p : String) : String :=
  orNotRun (pyLower (pyStrip (cellOf row p)))

/-- The `parsed` dict built by `parse_table` for one table line. -/
def rowOfCells (row : List (String × String)) : Row :=
  { linux := parseStatus row "linux"
    mac := parseStatus row "mac"
    windows := parseStatus row "windows"
    rockylinux8 := parseStatus row "rockylinux8"
    ubuntu20_04 := parseStatus row "ubuntu20.04"
    last_tested_utc := pyStrip (cellOf row "last_tested_utc") }

/-- `re.fullmatch(r"-+", part or "")`: nonempty and all dashes. -/
def isSepPart (s : String) : Bool :=
  !s.data.isEmpty && s.data.all (fun c => c == '-')

/-- `{columns[i]: parts[i] for i in range(min(len(columns), len(parts)))}`:
`List.zip` truncates at the shorter list, and a duplicated column name keeps
the later part, as in a dict comprehension. -/
def zipDict (columns parts : List String) : List (String × String) :=
  (columns.zip parts).foldl (fun m kv => dinsert kv.1 kv.2 m) []

/-- `[part.strip() for part in line.strip().strip("|").split("|")]`. -/
def lineParts (line : String) : List String :=
  (pySplit '|' (pyStripPipes (pyStrip line))).map pyStrip

/-- The loop state of `parse_table`: the `columns` list and the `rows` dict. -/
abbrev ParseState := List String × List (String × Row)

/-- One iteration of the `parse_table` loop body (the Python locals `parts`,
`row` and `version` are inlined as `lineParts line`,
`zipDict st.1 (lineParts line)` and the `normalize_version (...)` term). -/
def parse_step (st : ParseState) (line : String) : ParseState :=
  if line.data.head? = some '|' then
    if (lineParts line).length < 2 then st
    else if st.1 = [] then (lineParts line, st.2)
    else if (lineParts line).all isSepPart then st
    else if isVersionString
        (normalize_version (cellOf (zipDict st.1 (lineParts line)) "Codex version")) then
      (st.1, dinsert
        (normalize_version (cellOf (zipDict st.1 (lineParts line)) "Codex version"))
        (rowOfCells (zipDict st.1 (lineParts line))) st.2)
    else st
  else st

/-- `parse_table` on the lines of an existing table file. -/
def parse_table (lines : List String) : List (String × Row) :=
  (lines.foldl parse_step ([], [])).2

/-- `parse_table` including the missing-file early return. -/
def parseTableFile (t : Option (List String)) : List (String × Row) :=
  match t with
  | some lines => parse_table lines
  | none => []

/-- One JSON result file that decoded successfully; see the module docstring
for the encoding of its fields. -/
structure Artifact where
  platform : String
  results : Option (List (String × String))
  deriving Repr, DecidableEq

/-- The status allow-list `{"pass", "fail", "not-run"}` from `load_results`. -/
def ALLOWED_STATUSES : List String :=
  ["pass", "fail", "not-run"]

/-- `str(status).strip().lower()`, coerced to `"fail"` outside the allow-list. -/
def normStatus (status : String) : String :=
  let ns := pyLower (pyStrip status)
  if ns ∈ ALLOWED_STATUSES then ns else "fail"

/-- The `updates` accumulator of `load_results`: version → platform → status. -/
abbrev Updates := List (String × List (String × String))

/-- `updates.setdefault(normalized, {})[platform] = normalized_status`. -/
def upsertStatus (ver platform status : String) (updates : Updates) : Updates :=
  dinsert ver (dinsert platform status ((dlookup ver updates).getD [])) updates

/-- The body of the `for version, status in results.items()` loop. -/
def applyResult (platform : String) (updates : Updates) (entry : String × String) : Updates :=
  let normalized := normalize_version entry.1
  if isVersionString normalized then
    upsertStatus normalized platform (normStatus entry.2) updates
  else updates

/-- Processing of one file in the `load_results` loop: a JSON decode error is
skipped, then the platform is validated against `PLATFORMS`, then a
non-object `results` field is skipped, then each entry is folded in. -/
def load_step (updates : Updates) (file : Option Artifact) : Updates :=
  match file with
  | none => updates
  | some payload =>
    let platform := pyStrip payload.platform
    if platform ∈ PLATFORMS then
      match payload.results with
      | none => updates
      | some results => results.foldl (applyResult platform) updates
    else updates

/-- `load_results`, over the decoded JSON files in sorted path order (a
missing results directory is the empty list). -/
def load_results (files : List (Option Artifact)) : Updates :=
  files.foldl load_step []

/-- Provenance of one stored status: some decoded artifact in `files` has a
raw results entry whose stripped platform, normalized version and normalized
status are exactly the stored triple. -/
def StatusOrigin (files : List (Option Artifact)) (ver p s : String) : Prop :=
  ∃ a : Artifact, some a ∈ files ∧
    ∃ results : List (String × String), a.results = some results ∧
      ∃ rawVer rawStatus : String, (rawVer, rawStatus) ∈ results ∧
        pyStrip a.platform = p ∧ normalize_version rawVer = ver ∧
        s = normStatus rawStatus

/-- `int(part)` on a version component: the usual base-10 digit fold.  In
Python `int` raises `ValueError` on a non-digit part, which is unreachable
here: every key sorted by `write_table` satisfies `isVersionString` (see the
key invariant below), so the `0` default for non-digit strings is never
taken. -/
def pyInt (s : String) : Nat :=
  if !s.data.isEmpty && s.data.all Char.isDigit then
    s.data.foldl (fun n c => n * 10 + (c.toNat - '0'.toNat)) 0
  else 0

/-- `version_sort_key` from the script. -/
def version_sort_key (version : String) : List Nat :=
  (pySplit '.' version).map pyInt

/-- Strict lexicographic comparison of Python tuples of ints (a strict prefix
is smaller). -/
def keyLT : List Nat → List Nat → Bool
  | [], [] => false
  | [], _ :: _ => true
  | _ :: _, [] => false
  | a :: as, b :: bs => a < b || (a == b && keyLT as bs)

/-- The placement test of the stable descending sort
`sorted(rows.keys(), key=version_sort_key, reverse=True)`: `a` may stand
before `b` iff `a`'s key is not strictly smaller. -/
def descBefore (a b : String × Row) : Bool :=
  !keyLT (version_sort_key a.1) (version_sort_key b.1)

/-- Stable insertion into a descending-sorted list. -/
def sortInsert (a : String × Row) : List (String × Row) → List (String × Row)
  | [] => [a]
  | b :: l => if descBefore a b then a :: b :: l else b :: sortInsert a l

/-- `sorted(..., key=version_sort_key, reverse=True)` over the row pairs
(stable insertion sort, which matches Python's stable sort on unique keys). -/
def sortRows : List (String × Row) → List (String × Row)
  | [] => []
  | a :: l => sortInsert a (sortRows l)

/-- `HEADER` from the script. -/
def HEADER : List String :=
  ["| Codex version | linux | mac | windows | rockylinux8 | ubuntu20.04 | last_tested_utc |",
   "| --- | --- | --- | --- | --- | --- | --- |"]

/-- The f-string of `write_table` for one row (`row.get(platform, "not-run")`
and `row.get("last_tested_utc", "")` never default on the full rows the
script stores, so they are the structure fields here). -/
def render_row (version : String) (row : Row) : String :=
  "| " ++ version ++ " | " ++ row.linux ++ " | " ++ row.mac ++ " | " ++
    row.windows ++ " | " ++ row.rockylinux8 ++ " | " ++ row.ubuntu20_04 ++
    " | " ++ row.last_tested_utc ++ " |"

/-- `write_table`: the fixed preamble and header, then the rows sorted by
version key descending. -/
def write_table (rows : List (String × Row)) : List String :=
  ["# Codex Compatibility", "",
   "Auto-updated by `.github/workflows/codex-release-monitor.yml`.", ""] ++
  HEADER ++ (sortRows rows).map (fun vr => render_row vr.1 vr.2)

/-- `{platform: base.get(platform, "not-run") for platform in PLATFORMS}`
(the timestamp field is assigned afterwards by `merged_row`). -/
def defaultMerged (base : Option Row) : Row :=
  match base with
  | some r =>
    { linux := r.linux, mac := r.mac, windows := r.windows,
      rockylinux8 := r.rockylinux8, ubuntu20_04 := r.ubuntu20_04,
      last_tested_utc := "" }
  | none =>
    { linux := "not-run", mac := "not-run", windows := "not-run",
      rockylinux8 := "not-run", ubuntu20_04 := "not-run",
      last_tested_utc := "" }

/-- The merge in `main`: the defaulted base row, overlaid by
`merged.update(updates.get(version, {}))`, then the timestamp stamp. -/
def merged_row (base : Option Row) (upd : List (String × String)) (now : String) : Row :=
  let m := upd.foldl (fun r kv => Row.setP r kv.1 kv.2) (defaultMerged base)
  { m with last_tested_utc := now }

/-- The inputs of one invocation of `main`; see the module docstring. -/
structure RunInput where
  version_arg : String
  table_lines : Option (List String)
  artifacts : List (Option Artifact)
  deriving Repr

/-- `main`, with the current UTC timestamp string as a parameter:
`Except.error msg` is `raise SystemExit(msg)` before any table processing,
`Except.ok rows` is a successful run (exit code `0`) that writes
`write_table rows`. -/
def run (inp : RunInput) (now : String) : Except String (List (String × Row)) :=
  let version := normalize_version inp.version_arg
  if isVersionString version then
    let rows := parseTableFile inp.table_lines
    let updates := load_results inp.artifacts
    let base := dlookup version rows
    let merged := merged_row base ((dlookup version updates).getD []) now
    Except.ok (dinsert version merged rows)
  else
    Except.error ("Invalid version: " ++ inp.version_arg)

/-- `cs` does not start with a character satisfying `p`. -/
def noLead (p : Char → Bool) (cs : List Char) : Prop :=
  ∀ c, cs.head? = some c → p c = false

/-- A status cell as `parse_table` stores it: no surrounding whitespace,
already lowercased, nonempty, and free of `|` (it came from splitting a line
on `|`). -/
def GoodCell (s : String) : Prop :=
  noLead (fun c => c.isWhitespace) s.data ∧
  noLead (fun c => c.isWhitespace) s.data.reverse ∧
  pyLower s = s ∧ s ≠ "" ∧ '|' ∉ s.data

/-- A timestamp cell as `parse_table` stores it: stripped and free of `|`
(it may be empty). -/
def GoodTS (s : String) : Prop :=
  noLead (fun c => c.isWhitespace) s.data ∧
  noLead (fun c => c.isWhitespace) s.data.reverse ∧
  '|' ∉ s.data

/-- A row as the script stores it. -/
def GoodRow (r : Row) : Prop :=
  GoodCell r.linux ∧ GoodCell r.mac ∧ GoodCell r.windows ∧
  GoodCell r.rockylinux8 ∧ GoodCell r.ubuntu20_04 ∧ GoodTS r.last_tested_utc

/-- The invariant of the `rows` dict: uniquely keyed by well-formed version
strings, with well-formed cells. -/
def GoodRows (rows : List (String × Row)) : Prop :=
  (keysOf rows).Nodup ∧ ∀ e ∈ rows, isVersionString e.1 = true ∧ GoodRow e.2

/-- One padded cell of a rendered line, as it sits between two `|`. -/
def seg (s : String) : List Char :=
  ' ' :: s.data ++ [' ']

/-- The body of a rendered line, between the outermost `|` characters
(right-nested so that the `|` separators are explicit). -/
def rowSegs (v : String) (r : Row) : List Char :=
  seg v ++ '|' :: (seg r.linux ++ '|' :: (seg r.mac ++ '|' :: (seg r.windows ++
    '|' :: (seg r.rockylinux8 ++ '|' :: (seg r.ubuntu20_04 ++
    '|' :: seg r.last_tested_utc)))))

/-- The header columns of the table, as `parse_table` reads them from the
first `|` line `HEADER[0]`. -/
def cols7 : List String :=
  ["Codex version", "linux", "mac", "windows", "rockylinux8", "ubuntu20.04",
   "last_tested_utc"]

/-- The invariant of the `updates` dict built by `load_results`: uniquely
keyed by well-formed versions; inner dicts uniquely keyed by allow-listed
platforms, with statuses from the allowed set. -/
def GoodUpdates (updates : Updates) : Prop :=
  (keysOf updates).Nodup ∧
  ∀ e ∈ updates, isVersionString e.1 = true ∧
    ((keysOf e.2).Nodup ∧ ∀ ps ∈ e.2, ps.1 ∈ PLATFORMS ∧ ps.2 ∈ ALLOWED_STATUSES)

end CodexSync

namespace CodexSync

/-! ### Association-list lemmas -/

theorem dlookup_dinsert_self {α : Type} (k : String) (v : α) (l : List (String × α)) :
    dlookup k (dinsert k v l) = some v := by
  induction l with
  | nil => simp [dinsert, dlookup]
  | cons hd tl ih =>
    obtain ⟨k', v'⟩ := hd
    by_cases h : k' = k
    · simp [dinsert, dlookup, h]
    · simp [dinsert, dlookup, h, ih]

theorem dlookup_dinsert_ne {α : Type} {k k' : String} (h : k' ≠ k) (v : α)
    (l : List (String × α)) : dlookup k' (dinsert k v l) = dlookup k' l := by
  have hne : ¬k = k' := fun hh => h hh.symm
  induction l with
  | nil =>
    simp only [dinsert, dlookup]
    rw [if_neg hne]
  | cons hd tl ih =>
    obtain ⟨k0, v0⟩ := hd
    by_cases h0 : k0 = k
    · subst h0
      simp only [dinsert, if_pos rfl, dlookup]
      rw [if_neg hne, if_neg hne]
    · simp only [dinsert, if_neg h0, dlookup]
      by_cases h1 : k0 = k'
      · rw [if_pos h1, if_pos h1]
      · rw [if_neg h1, if_neg h1, ih]

theorem mem_dinsert {α : Type} {e : String × α} {k : String} {v : α}
    {l : List (String × α)} (h : e ∈ dinsert k v l) : e = (k, v) ∨ e ∈ l := by
  induction l with
  | nil => simpa [dinsert] using h
  | cons hd tl ih =>
    obtain ⟨k0, v0⟩ := hd
    by_cases h0 : k0 = k
    · simp only [dinsert, if_pos h0, List.mem_cons] at h
      rcases h with h | h
      · exact Or.inl h
      · exact Or.inr (List.mem_cons_of_mem _ h)
    · simp only [dinsert, if_neg h0, List.mem_cons] at h
      rcases h with h | h
      · exact Or.inr (List.mem_cons.2 (Or.inl h))
      · rcases ih h with h' | h'
        · exact Or.inl h'
        · exact Or.inr (List.mem_cons_of_mem _ h')

theorem dinsert_of_not_mem_keys {α : Type} {k : String} {l : List (String × α)}
    (h : k ∉ keysOf l) (v : α) : dinsert k v l = l ++ [(k, v)] := by
  induction l with
  | nil => rfl
  | cons hd tl ih =>
    obtain ⟨k0, v0⟩ := hd
    simp only [keysOf, List.map_cons, List.mem_cons, not_or] at h
    have h0 : ¬k0 = k := fun hh => h.1 hh.symm
    simp only [dinsert, if_neg h0, List.cons_append]
    rw [ih (by simpa [keysOf] using h.2)]

theorem keysOf_dinsert_of_mem {α : Type} {k : String} {l : List (String × α)}
    (h : k ∈ keysOf l) (v : α) : keysOf (dinsert k v l) = keysOf l := by
  induction l with
  | nil => simp [keysOf] at h
  | cons hd tl ih =>
    obtain ⟨k0, v0⟩ := hd
    by_cases h0 : k0 = k
    · simp [dinsert, if_pos h0, keysOf, h0]
    · simp only [keysOf, List.map_cons, List.mem_cons] at h
      rcases h with h | h
      · exact absurd h.symm h0
      · simp only [dinsert, if_neg h0, keysOf, List.map_cons]
        rw [show List.map Prod.fst (dinsert k v tl) = List.map Prod.fst tl from
          ih (by simpa [keysOf] using h)]

theorem keysOf_dinsert_nodup {α : Type} (k : String) (v : α) {l : List (String × α)}
    (h : (keysOf l).Nodup) : (keysOf (dinsert k v l)).Nodup := by
  by_cases hm : k ∈ keysOf l
  · rwa [keysOf_dinsert_of_mem hm]
  · rw [dinsert_of_not_mem_keys hm]
    simp only [keysOf, List.map_append, List.map_cons, List.map_nil]
    rw [List.nodup_append]
    refine ⟨h, List.nodup_singleton k, ?_⟩
    intro a ha hb
    simp only [List.mem_singleton] at hb
    subst hb
    exact hm ha

theorem dlookup_eq_none_iff {α : Type} {k : String} {l : List (String × α)} :
    dlookup k l = none ↔ k ∉ keysOf l := by
  induction l with
  | nil => simp [dlookup, keysOf]
  | cons hd tl ih =>
    obtain ⟨k0, v0⟩ := hd
    by_cases h0 : k0 = k
    · subst h0
      simp [dlookup, keysOf]
    · simp only [dlookup, if_neg h0, ih, keysOf, List.map_cons, List.mem_cons, not_or]
      exact ⟨fun hh => ⟨fun he => h0 he.symm, hh⟩, fun hh => hh.2⟩

theorem dlookup_some_mem {α : Type} {k : String} {v : α} {l : List (String × α)}
    (h : dlookup k l = some v) : (k, v) ∈ l := by
  induction l with
  | nil => simp [dlookup] at h
  | cons hd tl ih =>
    obtain ⟨k0, v0⟩ := hd
    by_cases h0 : k0 = k
    · subst h0
      rw [dlookup, if_pos rfl] at h
      injection h with hv
      exact List.mem_cons.2 (Or.inl (by rw [← hv]))
    · rw [dlookup, if_neg h0] at h
      exact List.mem_cons_of_mem _ (ih h)

theorem mem_dlookup {α : Type} {k : String} {v : α} {l : List (String × α)}
    (hnd : (keysOf l).Nodup) (hm : (k, v) ∈ l) : dlookup k l = some v := by
  induction l with
  | nil => simp at hm
  | cons hd tl ih =>
    obtain ⟨k0, v0⟩ := hd
    simp only [keysOf, List.map_cons, List.nodup_cons] at hnd
    rcases List.mem_cons.1 hm with h | h
    · simp only [Prod.mk.injEq] at h
      obtain ⟨h1, h2⟩ := h
      subst h1
      subst h2
      simp [dlookup]
    · by_cases h0 : k0 = k
      · subst h0
        have : k0 ∈ List.map Prod.fst tl := List.mem_map_of_mem Prod.fst h
        exact absurd this hnd.1
      · rw [dlookup, if_neg h0]
        exact ih (by simpa [keysOf] using hnd.2) h

theorem dlookup_perm {α : Type} {l l' : List (String × α)} (hp : l.Perm l')
    (hnd : (keysOf l).Nodup) (k : String) : dlookup k l = dlookup k l' := by
  have hkeys : (keysOf l).Perm (keysOf l') := hp.map Prod.fst
  have hnd' : (keysOf l').Nodup := hkeys.nodup_iff.1 hnd
  cases h : dlookup k l with
  | none =>
    rw [dlookup_eq_none_iff] at h
    exact (dlookup_eq_none_iff.2 fun hk => h (hkeys.mem_iff.2 hk)).symm
  | some v =>
    exact (mem_dlookup hnd' (hp.mem_iff.1 (dlookup_some_mem h))).symm

theorem foldl_dinsert_of_disjoint {α : Type} :
    ∀ (l acc : List (String × α)), (∀ k ∈ keysOf l, k ∉ keysOf acc) →
      (keysOf l).Nodup →
      l.foldl (fun m kv => dinsert kv.1 kv.2 m) acc = acc ++ l
  | [], acc, _, _ => by simp
  | (k, v) :: tl, acc, hdisj, hnd => by
    simp only [List.foldl_cons]
    have hk : k ∉ keysOf acc := hdisj k (List.mem_cons.2 (Or.inl rfl))
    rw [dinsert_of_not_mem_keys hk v]
    simp only [keysOf, List.map_cons, List.nodup_cons] at hnd
    rw [foldl_dinsert_of_disjoint tl (acc ++ [(k, v)])
      (fun k' hk' => by
        intro hc
        simp only [keysOf, List.map_append, List.mem_append, List.map_cons,
          List.map_nil, List.mem_singleton] at hc
        rcases hc with hc | hc
        · exact hdisj k' (List.mem_cons.2 (Or.inr hk')) hc
        · subst hc
          exact hnd.1 hk')
      hnd.2]
    simp

/-! ### Character lemmas -/

theorem isWhitespace_cases {c : Char} (h : c.isWhitespace = true) :
    c = ' ' ∨ c = '\t' ∨ c = '\r' ∨ c = '\n' := by
  simp only [Char.isWhitespace, Bool.or_eq_true, decide_eq_true_eq] at h
  tauto

theorem isDigit_not_whitespace {c : Char} (h : c.isDigit = true) :
    c.isWhitespace = false := by
  by_contra hc
  rw [Bool.not_eq_false] at hc
  rcases isWhitespace_cases hc with rfl | rfl | rfl | rfl <;> exact absurd h (by decide)

theorem isDigit_ne_v {c : Char} (h : c.isDigit = true) : c ≠ 'v' := by
  intro hc; subst hc; exact absurd h (by decide)

theorem isDigit_ne_pipe {c : Char} (h : c.isDigit = true) : c ≠ '|' := by
  intro hc; subst hc; exact absurd h (by decide)

theorem isDigit_ne_dash {c : Char} (h : c.isDigit = true) : c ≠ '-' := by
  intro hc; subst hc; exact absurd h (by decide)

theorem toNat_ofNat_valid {n : Nat} (h : n < 55296) : (Char.ofNat n).toNat = n := by
  have hv : n.isValidChar := Or.inl h
  rw [Char.ofNat, dif_pos hv]
  rfl

theorem toLower_of_upper {c : Char} (h : 65 ≤ c.toNat ∧ c.toNat ≤ 90) :
    Char.toLower c = Char.ofNat (c.toNat + 32) := by
  rw [Char.toLower]
  exact if_pos ⟨h.1, h.2⟩

theorem toLower_of_not_upper {c : Char} (h : ¬(65 ≤ c.toNat ∧ c.toNat ≤ 90)) :
    Char.toLower c = c := by
  rw [Char.toLower]
  exact if_neg fun hc => h ⟨hc.1, hc.2⟩

theorem toNat_toLower_of_upper {c : Char} (h : 65 ≤ c.toNat ∧ c.toNat ≤ 90) :
    (Char.toLower c).toNat = c.toNat + 32 := by
  rw [toLower_of_upper h]
  exact toNat_ofNat_valid (by omega)

theorem toLower_idem (c : Char) : Char.toLower (Char.toLower c) = Char.toLower c := by
  by_cases h : 65 ≤ c.toNat ∧ c.toNat ≤ 90
  · have h2 := toNat_toLower_of_upper h
    exact toLower_of_not_upper (by omega)
  · rw [toLower_of_not_upper h, toLower_of_not_upper h]

theorem isWhitespace_toLower (c : Char) :
    (Char.toLower c).isWhitespace = c.isWhitespace := by
  by_cases h : 65 ≤ c.toNat ∧ c.toNat ≤ 90
  · have h2 := toNat_toLower_of_upper h
    have hsp : (' ' : Char).toNat = 32 := rfl
    have htb : ('\t' : Char).toNat = 9 := rfl
    have hcr : ('\r' : Char).toNat = 13 := rfl
    have hnl : ('\n' : Char).toNat = 10 := rfl
    have hc : c.isWhitespace = false := by
      by_contra hcc
      rw [Bool.not_eq_false] at hcc
      rcases isWhitespace_cases hcc with hw | hw | hw | hw <;>
        rw [hw] at h <;> revert h <;> decide
    have hl : (Char.toLower c).isWhitespace = false := by
      by_contra hcc
      rw [Bool.not_eq_false] at hcc
      rcases isWhitespace_cases hcc with hw | hw | hw | hw <;>
        rw [hw] at h2 <;>
        first
        | (rw [hsp] at h2; omega)
        | (rw [htb] at h2; omega)
        | (rw [hcr] at h2; omega)
        | (rw [hnl] at h2; omega)
    rw [hc, hl]
  · rw [toLower_of_not_upper h]

theorem toLower_eq_pipe {c : Char} (h : Char.toLower c = '|') : c = '|' := by
  by_cases hu : 65 ≤ c.toNat ∧ c.toNat ≤ 90
  · exfalso
    have h2 := toNat_toLower_of_upper hu
    rw [h] at h2
    have hpn : ('|' : Char).toNat = 124 := rfl
    rw [hpn] at h2
    omega
  · rwa [toLower_of_not_upper hu] at h

end CodexSync

namespace CodexSync

/-! ### Stripping lemmas -/

theorem noLead_nil (p : Char → Bool) : noLead p [] := by
  intro c hc
  simp at hc

theorem noLead_cons {p : Char → Bool} {c : Char} {cs : List Char} (h : p c = false) :
    noLead p (c :: cs) := by
  intro c' hc'
  simp only [List.head?_cons, Option.some.injEq] at hc'
  rwa [← hc']

theorem noLead_of_all {p : Char → Bool} {cs : List Char}
    (h : ∀ c ∈ cs, p c = false) : noLead p cs := by
  intro c hc
  cases cs with
  | nil => simp at hc
  | cons c0 rest =>
    simp only [List.head?_cons, Option.some.injEq] at hc
    exact hc ▸ h c0 (List.mem_cons.2 (Or.inl rfl))

theorem dropWhile_eq_self {p : Char → Bool} {cs : List Char} (h : noLead p cs) :
    cs.dropWhile p = cs := by
  cases cs with
  | nil => rfl
  | cons c rest => exact List.dropWhile_cons_of_neg (by simp [h c rfl])

theorem stripTrailing_eq_self {p : Char → Bool} {cs : List Char}
    (h : noLead p cs.reverse) : stripTrailing p cs = cs := by
  rw [stripTrailing, dropWhile_eq_self h, List.reverse_reverse]

theorem stripBoth_eq_self {p : Char → Bool} {cs : List Char}
    (h1 : noLead p cs) (h2 : noLead p cs.reverse) : stripBoth p cs = cs := by
  rw [stripBoth, dropWhile_eq_self h1, stripTrailing_eq_self h2]

theorem noLead_dropWhile (p : Char → Bool) (cs : List Char) :
    noLead p (cs.dropWhile p) := by
  induction cs with
  | nil => exact noLead_nil p
  | cons c rest ih =>
    by_cases h : p c = true
    · rwa [List.dropWhile_cons_of_pos h]
    · rw [List.dropWhile_cons_of_neg (by simpa using h)]
      exact noLead_cons (by simpa using h)

theorem stripTrailing_front (p : Char → Bool) (cs : List Char) :
    ∃ t, stripTrailing p cs ++ t = cs := by
  obtain ⟨t, ht⟩ : ∃ t, t ++ cs.reverse.dropWhile p = cs.reverse := by
    induction cs.reverse with
    | nil => exact ⟨[], rfl⟩
    | cons c rest ih =>
      by_cases h : p c = true
      · obtain ⟨t, ht⟩ := ih
        exact ⟨c :: t, by rw [List.dropWhile_cons_of_pos h, List.cons_append, ht]⟩
      · exact ⟨[], by rw [List.dropWhile_cons_of_neg (by simpa using h), List.nil_append]⟩
  refine ⟨t.reverse, ?_⟩
  rw [stripTrailing]
  have := congrArg List.reverse ht
  rw [List.reverse_append, List.reverse_reverse] at this
  exact this

theorem noLead_stripTrailing {p : Char → Bool} {cs : List Char} (h : noLead p cs) :
    noLead p (stripTrailing p cs) := by
  obtain ⟨t, ht⟩ := stripTrailing_front p cs
  intro c hc
  cases hst : stripTrailing p cs with
  | nil => rw [hst] at hc; simp at hc
  | cons c0 rest =>
    rw [hst] at hc
    simp only [List.head?_cons, Option.some.injEq] at hc
    rw [hst] at ht
    apply h c
    rw [← ht, ← hc]
    rfl

theorem noLead_stripBoth (p : Char → Bool) (cs : List Char) :
    noLead p (stripBoth p cs) :=
  noLead_stripTrailing (noLead_dropWhile p cs)

theorem noLead_reverse_stripBoth (p : Char → Bool) (cs : List Char) :
    noLead p (stripBoth p cs).reverse := by
  rw [stripBoth, stripTrailing, List.reverse_reverse]
  exact noLead_dropWhile p _

theorem stripBoth_idem (p : Char → Bool) (cs : List Char) :
    stripBoth p (stripBoth p cs) = stripBoth p cs :=
  stripBoth_eq_self (noLead_stripBoth p cs) (noLead_reverse_stripBoth p cs)

theorem mem_of_mem_stripTrailing {p : Char → Bool} {c : Char} {cs : List Char}
    (h : c ∈ stripTrailing p cs) : c ∈ cs := by
  obtain ⟨t, ht⟩ := stripTrailing_front p cs
  rw [← ht]
  exact List.mem_append.2 (Or.inl h)

theorem mem_of_mem_stripBoth {p : Char → Bool} {c : Char} {cs : List Char}
    (h : c ∈ stripBoth p cs) : c ∈ cs := by
  rw [stripBoth] at h
  exact (List.dropWhile_sublist p).mem (mem_of_mem_stripTrailing h)

theorem stripTrailing_concat_of_pos {p : Char → Bool} {c : Char} (hc : p c = true)
    (cs : List Char) : stripTrailing p (cs ++ [c]) = stripTrailing p cs := by
  rw [stripTrailing, stripTrailing, List.reverse_append]
  simp only [List.reverse_cons, List.reverse_nil, List.nil_append, List.singleton_append]
  rw [List.dropWhile_cons_of_pos hc]

theorem stripBoth_space_pad (cs : List Char) :
    stripBoth (fun c => c.isWhitespace) (' ' :: cs ++ [' ']) =
      stripBoth (fun c => c.isWhitespace) cs := by
  rw [stripBoth, show (' ' :: cs ++ [' ']) = ' ' :: (cs ++ [' ']) from rfl,
    List.dropWhile_cons_of_pos (by decide), List.dropWhile_append]
  by_cases he : (cs.dropWhile fun c => c.isWhitespace).isEmpty
  · rw [if_pos he]
    have hnil : cs.dropWhile (fun c => c.isWhitespace) = [] := by
      simpa using he
    rw [stripBoth, hnil]
    rfl
  · rw [if_neg he, stripTrailing_concat_of_pos (by decide), stripBoth]

/-! ### splitOnChar lemmas -/

theorem splitOnChar_ne_nil (sep : Char) (cs : List Char) : splitOnChar sep cs ≠ [] := by
  cases cs with
  | nil => simp [splitOnChar]
  | cons c rest =>
    rw [splitOnChar]
    by_cases h : c = sep
    · rw [if_pos h]
      exact List.cons_ne_nil _ _
    · rw [if_neg h]
      cases hs : splitOnChar sep rest with
      | nil => exact List.cons_ne_nil _ _
      | cons g gs => exact List.cons_ne_nil _ _

theorem not_mem_of_mem_splitOnChar {sep : Char} {g : List Char} :
    ∀ {cs : List Char}, g ∈ splitOnChar sep cs → sep ∉ g
  | [], h => by
    simp only [splitOnChar, List.mem_singleton] at h
    subst h
    simp
  | c :: rest, h => by
    rw [splitOnChar] at h
    by_cases hc : c = sep
    · rw [if_pos hc] at h
      rcases List.mem_cons.1 h with h' | h'
      · subst h'; simp
      · exact not_mem_of_mem_splitOnChar h'
    · rw [if_neg hc] at h
      cases hs : splitOnChar sep rest with
      | nil => exact absurd hs (splitOnChar_ne_nil sep rest)
      | cons g0 gs =>
        rw [hs] at h
        rcases List.mem_cons.1 h with h' | h'
        · subst h'
          intro hm
          rcases List.mem_cons.1 hm with h'' | h''
          · exact hc h''.symm
          · exact not_mem_of_mem_splitOnChar (hs ▸ List.mem_cons.2 (Or.inl rfl)) h''
        · exact not_mem_of_mem_splitOnChar (hs ▸ List.mem_cons.2 (Or.inr h'))

theorem splitOnChar_of_not_mem {sep : Char} : ∀ {xs : List Char}, sep ∉ xs →
    splitOnChar sep xs = [xs]
  | [], _ => rfl
  | x :: xs, h => by
    have hx : ¬x = sep := fun hh => h (hh ▸ List.mem_cons.2 (Or.inl rfl))
    rw [splitOnChar, if_neg hx,
      splitOnChar_of_not_mem (fun hm => h (List.mem_cons.2 (Or.inr hm)))]

theorem splitOnChar_append_sep {sep : Char} : ∀ {xs : List Char}, sep ∉ xs →
    ∀ (ys : List Char), splitOnChar sep (xs ++ sep :: ys) = xs :: splitOnChar sep ys
  | [], _, ys => by
    rw [List.nil_append, splitOnChar, if_pos rfl]
  | x :: xs, h, ys => by
    have hx : ¬x = sep := fun hh => h (hh ▸ List.mem_cons.2 (Or.inl rfl))
    rw [List.cons_append, splitOnChar, if_neg hx,
      splitOnChar_append_sep (fun hm => h (List.mem_cons.2 (Or.inr hm))) ys]

end CodexSync

namespace CodexSync

/-! ### Version-string lemmas -/

theorem mk_data (s : String) : (⟨s.data⟩ : String) = s := rfl

theorem splitOnChar_all_digit_chars : ∀ {cs : List Char},
    (∀ g ∈ splitOnChar '.' cs, g.all Char.isDigit = true) →
    ∀ c ∈ cs, (c.isDigit || c == '.') = true
  | [], _, c, hc => by simp at hc
  | c0 :: rest, h, c, hc => by
    by_cases h0 : c0 = '.'
    · have hrest : ∀ g ∈ splitOnChar '.' rest, g.all Char.isDigit = true := by
        intro g hg
        apply h
        rw [splitOnChar, if_pos h0]
        exact List.mem_cons.2 (Or.inr hg)
      rcases List.mem_cons.1 hc with hc' | hc'
      · subst hc'
        rw [h0]
        simp
      · exact splitOnChar_all_digit_chars hrest c hc'
    · cases hs : splitOnChar '.' rest with
      | nil => exact absurd hs (splitOnChar_ne_nil '.' rest)
      | cons g gs =>
        have hsplit : splitOnChar '.' (c0 :: rest) = (c0 :: g) :: gs := by
          rw [splitOnChar, if_neg h0, hs]
        have hhead : (c0 :: g).all Char.isDigit = true := by
          apply h
          rw [hsplit]
          exact List.mem_cons.2 (Or.inl rfl)
        have hrest : ∀ g' ∈ splitOnChar '.' rest, g'.all Char.isDigit = true := by
          intro g' hg'
          rw [hs] at hg'
          rcases List.mem_cons.1 hg' with hg'' | hg''
          · subst hg''
            simp only [List.all_cons, Bool.and_eq_true] at hhead
            exact hhead.2
          · apply h
            rw [hsplit]
            exact List.mem_cons.2 (Or.inr hg'')
        rcases List.mem_cons.1 hc with hc' | hc'
        · subst hc'
          simp only [List.all_cons, Bool.and_eq_true] at hhead
          simp [hhead.1]
        · exact splitOnChar_all_digit_chars hrest c hc'

theorem isVersionString_groups {s : String} (h : isVersionString s = true) :
    ∀ g ∈ splitOnChar '.' s.data, isDigitGroup g = true := by
  rw [isVersionString] at h
  simp only [Bool.and_eq_true, List.all_eq_true] at h
  exact h.2

theorem isVersionString_chars {s : String} (h : isVersionString s = true) :
    ∀ c ∈ s.data, (c.isDigit || c == '.') = true := by
  apply splitOnChar_all_digit_chars
  intro g hg
  have := isVersionString_groups h g hg
  rw [isDigitGroup, Bool.and_eq_true] at this
  exact this.2

theorem isVersionString_head_digit {s : String} (h : isVersionString s = true) :
    ∃ c rest, s.data = c :: rest ∧ c.isDigit = true := by
  cases hd : s.data with
  | nil =>
    rw [isVersionString, hd] at h
    simp [splitOnChar] at h
  | cons c rest =>
    refine ⟨c, rest, rfl, ?_⟩
    have hc := isVersionString_chars h c (by rw [hd]; exact List.mem_cons.2 (Or.inl rfl))
    simp only [Bool.or_eq_true] at hc
    rcases hc with hc' | hc'
    · exact hc'
    · exfalso
      have hcd : c = '.' := by simpa using hc'
      have hgroups := isVersionString_groups h
      rw [hd, hcd, splitOnChar, if_pos rfl] at hgroups
      have := hgroups [] (List.mem_cons.2 (Or.inl rfl))
      simp [isDigitGroup] at this

theorem version_no_ws {s : String} (h : isVersionString s = true) :
    ∀ c ∈ s.data, c.isWhitespace = false := by
  intro c hc
  have hcc := isVersionString_chars h c hc
  simp only [Bool.or_eq_true] at hcc
  rcases hcc with hc' | hc'
  · exact isDigit_not_whitespace hc'
  · have : c = '.' := by simpa using hc'
    subst this
    decide

theorem version_no_pipe {s : String} (h : isVersionString s = true) :
    '|' ∉ s.data := by
  intro hm
  have hcc := isVersionString_chars h '|' hm
  simp only [Bool.or_eq_true] at hcc
  rcases hcc with hc' | hc' <;> revert hc' <;> decide

theorem pyStrip_version {s : String} (h : isVersionString s = true) :
    pyStrip s = s := by
  rw [pyStrip, stripBoth_eq_self (noLead_of_all (version_no_ws h))
    (noLead_of_all fun c hc => version_no_ws h c (List.mem_reverse.1 hc)), mk_data]

theorem normalize_version_fixed {s : String} (h : isVersionString s = true) :
    normalize_version s = s := by
  rw [normalize_version, pyStrip_version h, pyLStripV]
  obtain ⟨c, rest, hd, hdig⟩ := isVersionString_head_digit h
  rw [hd, List.dropWhile_cons_of_neg (by simp [isDigit_ne_v hdig]), ← hd, mk_data]

theorem version_not_sep {s : String} (h : isVersionString s = true) :
    isSepPart s = false := by
  obtain ⟨c, rest, hd, hdig⟩ := isVersionString_head_digit h
  rw [isSepPart, hd]
  simp [isDigit_ne_dash hdig]

/-! ### Well-formed cells -/

theorem goodCell_strip {s : String} (h : GoodCell s) : pyStrip s = s := by
  rw [pyStrip, stripBoth_eq_self h.1 h.2.1, mk_data]

theorem goodTS_strip {s : String} (h : GoodTS s) : pyStrip s = s := by
  rw [pyStrip, stripBoth_eq_self h.1 h.2.1, mk_data]

theorem pyLower_idem (s : String) : pyLower (pyLower s) = pyLower s := by
  show (⟨(s.data.map Char.toLower).map Char.toLower⟩ : String) = _
  rw [List.map_map]
  exact congrArg String.mk (List.map_congr_left fun c _ => toLower_idem c)

theorem GoodCell.reparse {s : String} (h : GoodCell s) :
    orNotRun (pyLower (pyStrip s)) = s := by
  rw [goodCell_strip h, h.2.2.1, orNotRun, if_neg h.2.2.2.1]

theorem noLead_ws_map_toLower {cs : List Char}
    (h : noLead (fun c => c.isWhitespace) cs) :
    noLead (fun c => c.isWhitespace) (cs.map Char.toLower) := by
  intro c hc
  cases cs with
  | nil => simp at hc
  | cons c0 rest =>
    simp only [List.map_cons, List.head?_cons, Option.some.injEq] at hc
    rw [← hc]
    show (Char.toLower c0).isWhitespace = false
    rw [isWhitespace_toLower]
    exact h c0 rfl

theorem pipe_not_mem_map_toLower {cs : List Char} (h : '|' ∉ cs) :
    '|' ∉ cs.map Char.toLower := by
  intro hm
  obtain ⟨c, hc, he⟩ := List.mem_map.1 hm
  exact h (toLower_eq_pipe he ▸ hc)

theorem parseStatus_good_cell {cell : String} (hcell : '|' ∉ cell.data) :
    GoodCell (orNotRun (pyLower (pyStrip cell))) := by
  by_cases he : pyLower (pyStrip cell) = ""
  · rw [orNotRun, if_pos he]
    refine ⟨noLead_cons (by decide), noLead_cons (by decide), by decide, by decide, by decide⟩
  · rw [orNotRun, if_neg he]
    have hdata : (pyLower (pyStrip cell)).data =
        (stripBoth (fun c => c.isWhitespace) cell.data).map Char.toLower := rfl
    refine ⟨?_, ?_, pyLower_idem (pyStrip cell), he, ?_⟩
    · rw [hdata]
      exact noLead_ws_map_toLower (noLead_stripBoth _ _)
    · rw [hdata, ← List.map_reverse]
      exact noLead_ws_map_toLower (noLead_reverse_stripBoth _ _)
    · rw [hdata]
      exact pipe_not_mem_map_toLower fun hm => hcell (mem_of_mem_stripBoth hm)

theorem pyStrip_good_ts {cell : String} (hcell : '|' ∉ cell.data) :
    GoodTS (pyStrip cell) := by
  refine ⟨?_, ?_, ?_⟩
  · exact noLead_stripBoth _ _
  · exact noLead_reverse_stripBoth _ _
  · intro hm
    exact hcell (mem_of_mem_stripBoth hm)

theorem version_good_lead {s : String} (h : isVersionString s = true) :
    noLead (fun c => c.isWhitespace) s.data ∧
    noLead (fun c => c.isWhitespace) s.data.reverse :=
  ⟨noLead_of_all (version_no_ws h),
   noLead_of_all fun c hc => version_no_ws h c (List.mem_reverse.1 hc)⟩

end CodexSync

namespace CodexSync

/-! ### Sorting lemmas -/

theorem keyLT_irrefl : ∀ a : List Nat, keyLT a a = false
  | [] => rfl
  | x :: xs => by
    rw [keyLT]
    simp [keyLT_irrefl xs]

theorem keyLT_trans : ∀ {a b c : List Nat},
    keyLT a b = true → keyLT b c = true → keyLT a c = true
  | [], [], _, h1, _ => by simp [keyLT] at h1
  | [], _ :: _, [], _, h2 => by simp [keyLT] at h2
  | [], _ :: _, _ :: _, _, _ => rfl
  | _ :: _, [], _, h1, _ => by simp [keyLT] at h1
  | _ :: _, _ :: _, [], _, h2 => by simp [keyLT] at h2
  | x :: xs, y :: ys, z :: zs, h1, h2 => by
    rw [keyLT] at h1 h2 ⊢
    simp only [Bool.or_eq_true, Bool.and_eq_true, decide_eq_true_eq, beq_iff_eq] at h1 h2 ⊢
    rcases h1 with h1 | ⟨h1e, h1r⟩ <;> rcases h2 with h2 | ⟨h2e, h2r⟩
    · exact Or.inl (Nat.lt_trans h1 h2)
    · exact Or.inl (h2e ▸ h1)
    · exact Or.inl (h1e ▸ h2)
    · exact Or.inr ⟨h1e.trans h2e, keyLT_trans h1r h2r⟩

theorem keyLT_trichotomy : ∀ a b : List Nat,
    keyLT a b = true ∨ keyLT b a = true ∨ a = b
  | [], [] => Or.inr (Or.inr rfl)
  | [], _ :: _ => Or.inl rfl
  | _ :: _, [] => Or.inr (Or.inl rfl)
  | x :: xs, y :: ys => by
    rcases Nat.lt_trichotomy x y with h | h | h
    · exact Or.inl (by rw [keyLT]; simp [h])
    · subst h
      rcases keyLT_trichotomy xs ys with h' | h' | h'
      · exact Or.inl (by rw [keyLT]; simp [h'])
      · exact Or.inr (Or.inl (by rw [keyLT]; simp [h']))
      · exact Or.inr (Or.inr (by rw [h']))
    · exact Or.inr (Or.inl (by rw [keyLT]; simp [h]))

theorem keyLT_asymm {a b : List Nat} (h : keyLT a b = true) : keyLT b a = false := by
  by_contra hc
  rw [Bool.not_eq_false] at hc
  have hirr := keyLT_trans h hc
  rw [keyLT_irrefl] at hirr
  simp at hirr

theorem descBefore_total (a b : String × Row) :
    descBefore a b = true ∨ descBefore b a = true := by
  rw [descBefore, descBefore, Bool.not_eq_true', Bool.not_eq_true']
  rcases keyLT_trichotomy (version_sort_key a.1) (version_sort_key b.1) with h | h | h
  · exact Or.inr (keyLT_asymm h)
  · exact Or.inl (keyLT_asymm h)
  · rw [h]
    exact Or.inl (keyLT_irrefl _)

theorem descBefore_trans {a b c : String × Row}
    (h1 : descBefore a b = true) (h2 : descBefore b c = true) :
    descBefore a c = true := by
  rw [descBefore, Bool.not_eq_true'] at h1 h2 ⊢
  by_contra hc
  rw [Bool.not_eq_false] at hc
  rcases keyLT_trichotomy (version_sort_key a.1) (version_sort_key b.1) with h | h | h
  · rw [h] at h1
    simp at h1
  · have ht := keyLT_trans h hc
    rw [ht] at h2
    simp at h2
  · rw [← h] at h2
    rw [hc] at h2
    simp at h2

theorem sortInsert_perm (a : String × Row) :
    ∀ l : List (String × Row), (sortInsert a l).Perm (a :: l)
  | [] => List.Perm.refl _
  | b :: l => by
    rw [sortInsert]
    by_cases h : descBefore a b = true
    · rw [if_pos h]
    · rw [if_neg h]
      exact ((sortInsert_perm a l).cons b).trans (List.Perm.swap a b l)

theorem sortRows_perm : ∀ l : List (String × Row), (sortRows l).Perm l
  | [] => List.Perm.refl _
  | a :: l => by
    rw [sortRows]
    exact (sortInsert_perm a (sortRows l)).trans ((sortRows_perm l).cons a)

theorem mem_sortInsert {e a : String × Row} {l : List (String × Row)}
    (h : e ∈ sortInsert a l) : e = a ∨ e ∈ l := by
  have := (sortInsert_perm a l).mem_iff.1 h
  simpa using this

theorem pairwise_sortInsert {a : String × Row} {l : List (String × Row)}
    (h : l.Pairwise (fun x y => descBefore x y = true)) :
    (sortInsert a l).Pairwise (fun x y => descBefore x y = true) := by
  induction l with
  | nil => simp [sortInsert]
  | cons b l ih =>
    rw [sortInsert]
    by_cases hab : descBefore a b = true
    · rw [if_pos hab]
      refine List.Pairwise.cons ?_ h
      intro x hx
      rcases List.mem_cons.1 hx with hx' | hx'
      · rwa [hx']
      · exact descBefore_trans hab ((List.pairwise_cons.1 h).1 x hx')
    · rw [if_neg hab]
      have hba : descBefore b a = true := by
        rcases descBefore_total a b with h' | h'
        · exact absurd h' hab
        · exact h'
      rw [List.pairwise_cons] at h
      refine List.Pairwise.cons ?_ (ih h.2)
      intro x hx
      rcases mem_sortInsert hx with hx' | hx'
      · rwa [hx']
      · exact h.1 x hx'

theorem sortRows_pairwise : ∀ l : List (String × Row),
    (sortRows l).Pairwise (fun x y => descBefore x y = true)
  | [] => List.Pairwise.nil
  | a :: l => by
    rw [sortRows]
    exact pairwise_sortInsert (sortRows_pairwise l)

end CodexSync

namespace CodexSync

/-! ### Parse invariants -/

theorem mem_foldl_dinsert {α : Type} {e : String × α} :
    ∀ {l : List (String × α)} {acc : List (String × α)},
      e ∈ l.foldl (fun m kv => dinsert kv.1 kv.2 m) acc → e ∈ acc ∨ e ∈ l
  | [], acc, h => Or.inl h
  | kv :: tl, acc, h => by
    rw [List.foldl_cons] at h
    rcases mem_foldl_dinsert h with h' | h'
    · rcases mem_dinsert h' with h'' | h''
      · exact Or.inr (List.mem_cons.2 (Or.inl h''))
      · exact Or.inl h''
    · exact Or.inr (List.mem_cons.2 (Or.inr h'))

theorem mem_zipDict_snd {e : String × String} {columns parts : List String}
    (h : e ∈ zipDict columns parts) : e.2 ∈ parts := by
  rw [zipDict] at h
  rcases mem_foldl_dinsert h with h' | h'
  · simp at h'
  · exact (List.of_mem_zip h').2

theorem cellOf_no_pipe {row : List (String × String)} {k : String}
    (h : ∀ e ∈ row, '|' ∉ e.2.data) : '|' ∉ (cellOf row k).data := by
  rw [cellOf]
  cases hd : dlookup k row with
  | none => simp
  | some v => exact h (k, v) (dlookup_some_mem hd)

theorem lineParts_no_pipe {line : String} : ∀ s ∈ lineParts line, '|' ∉ s.data := by
  intro s hs
  rw [lineParts, pySplit] at hs
  rw [List.map_map] at hs
  obtain ⟨g, hg, he⟩ := List.mem_map.1 hs
  subst he
  intro hm
  have hmem : '|' ∈ g := mem_of_mem_stripBoth hm
  exact not_mem_of_mem_splitOnChar hg hmem

theorem rowOfCells_good {row : List (String × String)}
    (h : ∀ e ∈ row, '|' ∉ e.2.data) : GoodRow (rowOfCells row) := by
  refine ⟨?_, ?_, ?_, ?_, ?_, ?_⟩
  · exact parseStatus_good_cell (cellOf_no_pipe h)
  · exact parseStatus_good_cell (cellOf_no_pipe h)
  · exact parseStatus_good_cell (cellOf_no_pipe h)
  · exact parseStatus_good_cell (cellOf_no_pipe h)
  · exact parseStatus_good_cell (cellOf_no_pipe h)
  · exact pyStrip_good_ts (cellOf_no_pipe h)

theorem parse_step_good {st : ParseState} (line : String) (h : GoodRows st.2) :
    GoodRows (parse_step st line).2 := by
  rw [parse_step]
  by_cases h1 : line.data.head? = some '|'
  · rw [if_pos h1]
    by_cases h2 : (lineParts line).length < 2
    · rw [if_pos h2]
      exact h
    · rw [if_neg h2]
      by_cases h3 : st.1 = []
      · rw [if_pos h3]
        exact h
      · rw [if_neg h3]
        by_cases h4 : (lineParts line).all isSepPart
        · rw [if_pos h4]
          exact h
        · rw [if_neg h4]
          by_cases h5 : isVersionString
              (normalize_version (cellOf (zipDict st.1 (lineParts line)) "Codex version")) = true
          · rw [if_pos h5]
            refine ⟨keysOf_dinsert_nodup _ _ h.1, ?_⟩
            intro e he
            rcases mem_dinsert he with he' | he'
            · subst he'
              refine ⟨h5, rowOfCells_good ?_⟩
              intro e' he'
              exact lineParts_no_pipe e'.2 (mem_zipDict_snd he')
            · exact h.2 e he'
          · rw [if_neg h5]
            exact h
  · rw [if_neg h1]
    exact h

theorem foldl_parse_step_good :
    ∀ (lines : List String) (st : ParseState), GoodRows st.2 →
      GoodRows (lines.foldl parse_step st).2
  | [], _, h => h
  | line :: rest, st, h => by
    rw [List.foldl_cons]
    exact foldl_parse_step_good rest (parse_step st line) (parse_step_good line h)

theorem parse_table_good (lines : List String) : GoodRows (parse_table lines) := by
  rw [parse_table]
  exact foldl_parse_step_good lines ([], []) ⟨List.nodup_nil, by simp⟩

theorem parseTableFile_good (t : Option (List String)) : GoodRows (parseTableFile t) := by
  cases t with
  | none =>
    refine ⟨List.nodup_nil, ?_⟩
    intro e he
    simp [parseTableFile] at he
  | some lines => exact parse_table_good lines

end CodexSync

namespace CodexSync

/-! ### Re-parsing a rendered row -/

theorem render_row_data (v : String) (r : Row) :
    (render_row v r).data = '|' :: rowSegs v r ++ ['|'] := by
  have d1 : ("| " : String).data = ['|', ' '] := rfl
  have d2 : (" | " : String).data = [' ', '|', ' '] := rfl
  have d3 : (" |" : String).data = [' ', '|'] := rfl
  simp [render_row, rowSegs, seg, d1, d2, d3]

theorem rowSegs_concat (v : String) (r : Row) :
    rowSegs v r = (seg v ++ '|' :: seg r.linux ++ '|' :: seg r.mac ++
      '|' :: seg r.windows ++ '|' :: seg r.rockylinux8 ++
      '|' :: seg r.ubuntu20_04 ++ '|' :: ' ' :: r.last_tested_utc.data) ++ [' '] := by
  simp [rowSegs, seg]

end CodexSync

namespace CodexSync

theorem render_head (v : String) (r : Row) :
    (render_row v r).data.head? = some '|' := by
  rw [render_row_data]
  rfl

theorem render_getLast (v : String) (r : Row) :
    (render_row v r).data.getLast? = some '|' := by
  rw [render_row_data,
    show ('|' :: rowSegs v r ++ ['|']) = ('|' :: rowSegs v r) ++ ['|'] from rfl]
  exact List.getLast?_concat _

theorem pyStrip_render (v : String) (r : Row) :
    pyStrip (render_row v r) = render_row v r := by
  rw [pyStrip]
  rw [stripBoth_eq_self ?_ ?_, mk_data]
  · intro c hc
    rw [render_head] at hc
    injection hc with hc
    subst hc
    decide
  · intro c hc
    rw [List.head?_reverse, render_getLast] at hc
    injection hc with hc
    subst hc
    decide

theorem rowSegs_head (v : String) (r : Row) :
    ∃ z, rowSegs v r = ' ' :: z := by
  refine ⟨v.data ++ [' '] ++ '|' :: (seg r.linux ++ '|' :: (seg r.mac ++
    '|' :: (seg r.windows ++ '|' :: (seg r.rockylinux8 ++
    '|' :: (seg r.ubuntu20_04 ++ '|' :: seg r.last_tested_utc))))), ?_⟩
  simp [rowSegs, seg]

theorem stripPipes_render (v : String) (r : Row) :
    stripBoth (fun c => c == '|') (render_row v r).data = rowSegs v r := by
  obtain ⟨z, hz⟩ := rowSegs_head v r
  rw [render_row_data, stripBoth,
    show ('|' :: rowSegs v r ++ ['|']) = '|' :: (rowSegs v r ++ ['|']) from rfl,
    List.dropWhile_cons_of_pos (by decide)]
  rw [dropWhile_eq_self (by rw [hz]; exact noLead_cons (by decide))]
  rw [stripTrailing_concat_of_pos (by decide)]
  apply stripTrailing_eq_self
  intro c hc
  rw [List.head?_reverse, rowSegs_concat, List.getLast?_concat] at hc
  injection hc with hc
  subst hc
  decide

theorem seg_no_pipe {s : String} (h : '|' ∉ s.data) : '|' ∉ seg s := by
  intro hm
  rw [seg] at hm
  rcases List.mem_cons.1 hm with hm' | hm'
  · exact absurd hm' (by decide)
  · rcases List.mem_append.1 hm' with hm'' | hm''
    · exact h hm''
    · exact absurd hm'' (by decide)

theorem splitOnChar_rowSegs (v : String) (r : Row) (hv : '|' ∉ v.data)
    (h1 : '|' ∉ r.linux.data) (h2 : '|' ∉ r.mac.data) (h3 : '|' ∉ r.windows.data)
    (h4 : '|' ∉ r.rockylinux8.data) (h5 : '|' ∉ r.ubuntu20_04.data)
    (h6 : '|' ∉ r.last_tested_utc.data) :
    splitOnChar '|' (rowSegs v r) =
      [seg v, seg r.linux, seg r.mac, seg r.windows, seg r.rockylinux8,
       seg r.ubuntu20_04, seg r.last_tested_utc] := by
  rw [rowSegs]
  rw [splitOnChar_append_sep (seg_no_pipe hv)]
  rw [splitOnChar_append_sep (seg_no_pipe h1)]
  rw [splitOnChar_append_sep (seg_no_pipe h2)]
  rw [splitOnChar_append_sep (seg_no_pipe h3)]
  rw [splitOnChar_append_sep (seg_no_pipe h4)]
  rw [splitOnChar_append_sep (seg_no_pipe h5)]
  rw [splitOnChar_of_not_mem (seg_no_pipe h6)]

theorem pyStrip_seg {s : String}
    (hlead : noLead (fun c => c.isWhitespace) s.data)
    (htrail : noLead (fun c => c.isWhitespace) s.data.reverse) :
    pyStrip ⟨seg s⟩ = s := by
  rw [pyStrip, show (⟨seg s⟩ : String).data = ' ' :: s.data ++ [' '] from rfl,
    stripBoth_space_pad, stripBoth_eq_self hlead htrail, mk_data]

set_option maxHeartbeats 1600000 in
theorem lineParts_render (v : String) (r : Row) (hv : isVersionString v = true)
    (hr : GoodRow r) :
    lineParts (render_row v r) =
      [v, r.linux, r.mac, r.windows, r.rockylinux8, r.ubuntu20_04,
       r.last_tested_utc] := by
  obtain ⟨g1, g2, g3, g4, g5, g6⟩ := hr
  rw [lineParts]
  rw [pyStrip_render]
  rw [pySplit]
  rw [show (pyStripPipes (render_row v r)).data =
      stripBoth (fun c => c == '|') (render_row v r).data from rfl]
  rw [stripPipes_render]
  rw [splitOnChar_rowSegs v r (version_no_pipe hv) g1.2.2.2.2 g2.2.2.2.2 g3.2.2.2.2
      g4.2.2.2.2 g5.2.2.2.2 g6.2.2]
  simp only [List.map_cons, List.map_nil]
  rw [pyStrip_seg (version_good_lead hv).1 (version_good_lead hv).2,
    pyStrip_seg g1.1 g1.2.1, pyStrip_seg g2.1 g2.2.1, pyStrip_seg g3.1 g3.2.1,
    pyStrip_seg g4.1 g4.2.1, pyStrip_seg g5.1 g5.2.1, pyStrip_seg g6.1 g6.2.1]

end CodexSync

namespace CodexSync

theorem zipDict_cols7 (v l m w rl u t : String) :
    zipDict cols7 [v, l, m, w, rl, u, t] =
      [("Codex version", v), ("linux", l), ("mac", m), ("windows", w),
       ("rockylinux8", rl), ("ubuntu20.04", u), ("last_tested_utc", t)] := rfl

theorem rowOfCells_cols7 {r : Row} (v : String) (hr : GoodRow r) :
    rowOfCells (zipDict cols7 [v, r.linux, r.mac, r.windows, r.rockylinux8,
      r.ubuntu20_04, r.last_tested_utc]) = r := by
  obtain ⟨g1, g2, g3, g4, g5, g6⟩ := hr
  obtain ⟨a, b, c, d, e, f⟩ := r
  simp only [rowOfCells, Row.mk.injEq]
  exact ⟨GoodCell.reparse g1, GoodCell.reparse g2, GoodCell.reparse g3,
    GoodCell.reparse g4, GoodCell.reparse g5, goodTS_strip g6⟩

set_option maxHeartbeats 1600000 in
theorem render_parse_step (v : String) (r : Row) (acc : List (String × Row))
    (hv : isVersionString v = true) (hr : GoodRow r) :
    parse_step (cols7, acc) (render_row v r) = (cols7, dinsert v r acc) := by
  have hlen : ¬([v, r.linux, r.mac, r.windows, r.rockylinux8, r.ubuntu20_04,
      r.last_tested_utc].length < 2) := by simp
  have hcols : ¬((cols7, acc).1 = []) := by simp [cols7]
  have hsep : ¬([v, r.linux, r.mac, r.windows, r.rockylinux8, r.ubuntu20_04,
      r.last_tested_utc].all isSepPart = true) := by
    intro hall
    rw [List.all_cons, version_not_sep hv] at hall
    simp at hall
  rw [parse_step, if_pos (render_head v r), lineParts_render v r hv hr,
    if_neg hlen, if_neg hcols, if_neg hsep]
  rw [show (zipDict (cols7, acc).1 [v, r.linux, r.mac, r.windows, r.rockylinux8,
      r.ubuntu20_04, r.last_tested_utc]) = zipDict cols7 [v, r.linux, r.mac,
      r.windows, r.rockylinux8, r.ubuntu20_04, r.last_tested_utc] from rfl]
  rw [show cellOf (zipDict cols7 [v, r.linux, r.mac, r.windows, r.rockylinux8,
      r.ubuntu20_04, r.last_tested_utc]) "Codex version" = v from rfl]
  rw [normalize_version_fixed hv, if_pos hv]
  rw [rowOfCells_cols7 v hr]

end CodexSync

namespace CodexSync

theorem foldl_render :
    ∀ (l : List (String × Row)) (acc : List (String × Row)),
      (∀ e ∈ l, isVersionString e.1 = true ∧ GoodRow e.2) →
      ((l.map fun vr => render_row vr.1 vr.2).foldl parse_step (cols7, acc)) =
        (cols7, l.foldl (fun m vr => dinsert vr.1 vr.2 m) acc)
  | [], acc, _ => rfl
  | vr :: tl, acc, h => by
    rw [List.map_cons, List.foldl_cons, List.foldl_cons]
    have h1 := h vr (List.mem_cons.2 (Or.inl rfl))
    rw [render_parse_step vr.1 vr.2 acc h1.1 h1.2]
    exact foldl_render tl (dinsert vr.1 vr.2 acc)
      (fun e he => h e (List.mem_cons.2 (Or.inr he)))

theorem header_state :
    List.foldl parse_step (([], []) : ParseState)
      (["# Codex Compatibility", "",
        "Auto-updated by `.github/workflows/codex-release-monitor.yml`.", ""] ++
       HEADER) = (cols7, ([] : List (String × Row))) := by
  rfl

theorem parse_write {rows : List (String × Row)} (h : GoodRows rows) (k : String) :
    dlookup k (parse_table (write_table rows)) = dlookup k rows := by
  have hperm := sortRows_perm rows
  have hnodup : (keysOf (sortRows rows)).Nodup :=
    ((hperm.map Prod.fst).nodup_iff).2 h.1
  rw [parse_table, write_table, List.foldl_append, header_state]
  rw [foldl_render (sortRows rows) []
    (fun e he => h.2 e (hperm.subset he))]
  rw [show ((cols7, List.foldl (fun m vr => dinsert vr.1 vr.2 m) []
      (sortRows rows)) : ParseState).2 =
    List.foldl (fun m vr => dinsert vr.1 vr.2 m) [] (sortRows rows) from rfl]
  rw [show List.foldl (fun m vr => dinsert vr.1 vr.2 m) [] (sortRows rows) =
    (sortRows rows).foldl (fun m vr => dinsert vr.1 vr.2 m) [] from rfl]
  rw [foldl_dinsert_of_disjoint (sortRows rows) [] (by simp [keysOf]) hnodup]
  rw [List.nil_append]
  exact dlookup_perm hperm hnodup k

end CodexSync

namespace CodexSync

/-! ### load_results invariants -/

theorem normStatus_mem (s : String) : normStatus s ∈ ALLOWED_STATUSES := by
  by_cases hmem : pyLower (pyStrip s) ∈ ALLOWED_STATUSES
  · show (if pyLower (pyStrip s) ∈ ALLOWED_STATUSES then pyLower (pyStrip s)
      else "fail") ∈ ALLOWED_STATUSES
    rw [if_pos hmem]
    exact hmem
  · show (if pyLower (pyStrip s) ∈ ALLOWED_STATUSES then pyLower (pyStrip s)
      else "fail") ∈ ALLOWED_STATUSES
    rw [if_neg hmem]
    decide

theorem upsertStatus_good {updates : Updates} (hg : GoodUpdates updates)
    {ver platform status : String} (hver : isVersionString ver = true)
    (hplat : platform ∈ PLATFORMS) (hstat : status ∈ ALLOWED_STATUSES) :
    GoodUpdates (upsertStatus ver platform status updates) := by
  have hinner : (keysOf ((dlookup ver updates).getD [])).Nodup ∧
      ∀ ps ∈ (dlookup ver updates).getD [],
        ps.1 ∈ PLATFORMS ∧ ps.2 ∈ ALLOWED_STATUSES := by
    cases hd : dlookup ver updates with
    | none => exact ⟨List.nodup_nil, by simp⟩
    | some inner =>
      exact (hg.2 (ver, inner) (dlookup_some_mem hd)).2
  constructor
  · exact keysOf_dinsert_nodup _ _ hg.1
  · intro e he
    rcases mem_dinsert he with he' | he'
    · subst he'
      refine ⟨hver, keysOf_dinsert_nodup _ _ hinner.1, ?_⟩
      intro ps hps
      rcases mem_dinsert hps with hps' | hps'
      · subst hps'
        exact ⟨hplat, hstat⟩
      · exact hinner.2 ps hps'
    · exact hg.2 e he'

theorem applyResult_good {updates : Updates} (hg : GoodUpdates updates)
    {platform : String} (hplat : platform ∈ PLATFORMS) (entry : String × String) :
    GoodUpdates (applyResult platform updates entry) := by
  rw [applyResult]
  by_cases hver : isVersionString (normalize_version entry.1) = true
  · rw [if_pos hver]
    exact upsertStatus_good hg hver hplat (normStatus_mem entry.2)
  · rw [if_neg hver]
    exact hg

theorem foldl_applyResult_good {platform : String} (hplat : platform ∈ PLATFORMS) :
    ∀ (results : List (String × String)) (updates : Updates),
      GoodUpdates updates →
      GoodUpdates (results.foldl (applyResult platform) updates)
  | [], _, hg => hg
  | entry :: tl, updates, hg => by
    rw [List.foldl_cons]
    exact foldl_applyResult_good hplat tl _ (applyResult_good hg hplat entry)

theorem load_step_good {updates : Updates} (hg : GoodUpdates updates)
    (file : Option Artifact) : GoodUpdates (load_step updates file) := by
  cases file with
  | none => exact hg
  | some payload =>
    rw [load_step]
    by_cases hplat : pyStrip payload.platform ∈ PLATFORMS
    · rw [if_pos hplat]
      cases payload.results with
      | none => exact hg
      | some results => exact foldl_applyResult_good hplat results updates hg
    · rw [if_neg hplat]
      exact hg

theorem load_results_good_aux :
    ∀ (files : List (Option Artifact)) (updates : Updates),
      GoodUpdates updates → GoodUpdates (files.foldl load_step updates)
  | [], _, hg => hg
  | file :: tl, updates, hg => by
    rw [List.foldl_cons]
    exact load_results_good_aux tl _ (load_step_good hg file)

theorem load_results_good (files : List (Option Artifact)) :
    GoodUpdates (load_results files) := by
  rw [load_results]
  exact load_results_good_aux files [] ⟨List.nodup_nil, by simp⟩

/-! ### Row.get / Row.setP lemmas -/

theorem platform_cases {p : String} (hp : p ∈ PLATFORMS) :
    p = "linux" ∨ p = "mac" ∨ p = "windows" ∨ p = "rockylinux8" ∨
      p = "ubuntu20.04" := by
  simpa [PLATFORMS] using hp

theorem Row_get_setP_self {r : Row} {p : String} (hp : p ∈ PLATFORMS)
    (v d : String) : Row.get (Row.setP r p v) p d = v := by
  rcases platform_cases hp with rfl | rfl | rfl | rfl | rfl <;> rfl

theorem Row_get_setP_ne {r : Row} {kk p : String} (hk : kk ∈ PLATFORMS)
    (hp : p ∈ PLATFORMS) (hne : kk ≠ p) (v d : String) :
    Row.get (Row.setP r kk v) p d = Row.get r p d := by
  rcases platform_cases hk with rfl | rfl | rfl | rfl | rfl <;>
    rcases platform_cases hp with rfl | rfl | rfl | rfl | rfl <;>
    first
    | exact absurd rfl hne
    | rfl

theorem get_foldl_setP_not_mem :
    ∀ (upd : List (String × String)) (r0 : Row) {p : String}, p ∈ PLATFORMS →
      (∀ e ∈ upd, e.1 ∈ PLATFORMS) → p ∉ keysOf upd →
      Row.get (upd.foldl (fun r kv => Row.setP r kv.1 kv.2) r0) p "not-run" =
        Row.get r0 p "not-run"
  | [], _, _, _, _, _ => rfl
  | kv :: tl, r0, p, hp, hkeys, hnm => by
    rw [List.foldl_cons]
    have hne : kv.1 ≠ p := by
      intro hc
      exact hnm (by rw [← hc]; exact List.mem_cons.2 (Or.inl rfl))
    rw [get_foldl_setP_not_mem tl _ hp
      (fun e he => hkeys e (List.mem_cons.2 (Or.inr he)))
      (fun hc => hnm (List.mem_cons.2 (Or.inr hc)))]
    exact Row_get_setP_ne (hkeys kv (List.mem_cons.2 (Or.inl rfl))) hp hne _ _

theorem get_foldl_setP :
    ∀ (upd : List (String × String)) (r0 : Row) {p : String}, p ∈ PLATFORMS →
      (∀ e ∈ upd, e.1 ∈ PLATFORMS) → (keysOf upd).Nodup →
      Row.get (upd.foldl (fun r kv => Row.setP r kv.1 kv.2) r0) p "not-run" =
        (dlookup p upd).getD (Row.get r0 p "not-run")
  | [], _, _, _, _, _ => rfl
  | kv :: tl, r0, p, hp, hkeys, hnd => by
    obtain ⟨kk, vv⟩ := kv
    rw [List.foldl_cons]
    simp only [keysOf, List.map_cons, List.nodup_cons] at hnd
    by_cases hkp : kk = p
    · subst hkp
      rw [dlookup, if_pos rfl, Option.getD_some]
      rw [get_foldl_setP_not_mem tl _ hp
        (fun e he => hkeys e (List.mem_cons.2 (Or.inr he)))
        (by simpa [keysOf] using hnd.1)]
      exact Row_get_setP_self hp vv _
    · rw [dlookup, if_neg hkp]
      rw [get_foldl_setP tl _ hp
        (fun e he => hkeys e (List.mem_cons.2 (Or.inr he)))
        (by simpa [keysOf] using hnd.2)]
      rw [Row_get_setP_ne (hkeys (kk, vv) (List.mem_cons.2 (Or.inl rfl))) hp hkp]

theorem get_defaultMerged (base : Option Row) {p : String} (hp : p ∈ PLATFORMS) :
    Row.get (defaultMerged base) p "not-run" =
      (base.map fun r => Row.get r p "not-run").getD "not-run" := by
  cases base with
  | none => rcases platform_cases hp with rfl | rfl | rfl | rfl | rfl <;> rfl
  | some r => rcases platform_cases hp with rfl | rfl | rfl | rfl | rfl <;> rfl

theorem get_update_last {m : Row} {now p : String} (hp : p ∈ PLATFORMS)
    (d : String) :
    Row.get { m with last_tested_utc := now } p d = Row.get m p d := by
  rcases platform_cases hp with rfl | rfl | rfl | rfl | rfl <;> rfl

theorem merged_row_last (base : Option Row) (upd : List (String × String))
    (now : String) : (merged_row base upd now).last_tested_utc = now := rfl

theorem get_merged_row (base : Option Row) (upd : List (String × String))
    (now : String) {p : String} (hp : p ∈ PLATFORMS)
    (hkeys : ∀ e ∈ upd, e.1 ∈ PLATFORMS) (hnd : (keysOf upd).Nodup) :
    Row.get (merged_row base upd now) p "not-run" =
      (dlookup p upd).getD
        ((base.map fun r => Row.get r p "not-run").getD "not-run") := by
  rw [merged_row]
  rw [get_update_last hp]
  rw [get_foldl_setP upd (defaultMerged base) hp hkeys hnd]
  rw [get_defaultMerged base hp]

end CodexSync

namespace CodexSync

/-! ### Status provenance -/

theorem upsertStatus_entry {P : String → String → String → Prop} {updates : Updates}
    (hP : ∀ e ∈ updates, ∀ ps ∈ e.2, P e.1 ps.1 ps.2)
    {ver platform status : String} (hnew : P ver platform status) :
    ∀ e ∈ upsertStatus ver platform status updates, ∀ ps ∈ e.2, P e.1 ps.1 ps.2 := by
  intro e he ps hps
  rcases mem_dinsert he with he' | he'
  · subst he'
    replace hps : ps ∈ dinsert platform status ((dlookup ver updates).getD []) := hps
    rcases mem_dinsert hps with hps' | hps'
    · subst hps'
      exact hnew
    · cases hd : dlookup ver updates with
      | none =>
        rw [hd] at hps'
        simp at hps'
      | some inner0 =>
        rw [hd, Option.getD_some] at hps'
        exact hP (ver, inner0) (dlookup_some_mem hd) ps hps'
  · exact hP e he' ps hps

theorem applyResult_entry {P : String → String → String → Prop} {updates : Updates}
    (hP : ∀ e ∈ updates, ∀ ps ∈ e.2, P e.1 ps.1 ps.2) {platform : String}
    (entry : String × String)
    (hnew : P (normalize_version entry.1) platform (normStatus entry.2)) :
    ∀ e ∈ applyResult platform updates entry, ∀ ps ∈ e.2, P e.1 ps.1 ps.2 := by
  rw [applyResult]
  by_cases hver : isVersionString (normalize_version entry.1) = true
  · rw [if_pos hver]
    exact upsertStatus_entry hP hnew
  · rw [if_neg hver]
    exact hP

theorem foldl_applyResult_entry {P : String → String → String → Prop}
    {platform : String} :
    ∀ (results : List (String × String)) (updates : Updates),
      (∀ e ∈ updates, ∀ ps ∈ e.2, P e.1 ps.1 ps.2) →
      (∀ entry ∈ results,
        P (normalize_version entry.1) platform (normStatus entry.2)) →
      ∀ e ∈ results.foldl (applyResult platform) updates, ∀ ps ∈ e.2,
        P e.1 ps.1 ps.2
  | [], _, hP, _ => hP
  | entry :: tl, updates, hP, hnew => by
    rw [List.foldl_cons]
    exact foldl_applyResult_entry tl _
      (applyResult_entry hP entry (hnew entry (List.mem_cons.2 (Or.inl rfl))))
      (fun entry' h' => hnew entry' (List.mem_cons.2 (Or.inr h')))

theorem load_step_entry {P : String → String → String → Prop} {updates : Updates}
    (hP : ∀ e ∈ updates, ∀ ps ∈ e.2, P e.1 ps.1 ps.2) (file : Option Artifact)
    (hnew : ∀ a : Artifact, file = some a →
      ∀ results : List (String × String), a.results = some results →
      ∀ entry ∈ results,
        P (normalize_version entry.1) (pyStrip a.platform) (normStatus entry.2)) :
    ∀ e ∈ load_step updates file, ∀ ps ∈ e.2, P e.1 ps.1 ps.2 := by
  cases file with
  | none => exact hP
  | some payload =>
    rw [load_step]
    by_cases hplat : pyStrip payload.platform ∈ PLATFORMS
    · rw [if_pos hplat]
      cases hres : payload.results with
      | none => exact hP
      | some results =>
        exact foldl_applyResult_entry results updates hP
          (fun entry he => hnew payload rfl results hres entry he)
    · rw [if_neg hplat]
      exact hP

theorem foldl_load_step_origin (files0 : List (Option Artifact)) :
    ∀ (suffix : List (Option Artifact)) (acc : Updates),
      (∀ f ∈ suffix, f ∈ files0) →
      (∀ e ∈ acc, ∀ ps ∈ e.2, StatusOrigin files0 e.1 ps.1 ps.2) →
      ∀ e ∈ suffix.foldl load_step acc, ∀ ps ∈ e.2,
        StatusOrigin files0 e.1 ps.1 ps.2
  | [], _, _, hP => hP
  | f :: rest, acc, hsub, hP => by
    rw [List.foldl_cons]
    apply foldl_load_step_origin files0 rest _
      (fun f' hf' => hsub f' (List.mem_cons.2 (Or.inr hf')))
    apply load_step_entry hP f
    intro a ha results hres entry he
    exact ⟨a, by rw [← ha]; exact hsub f (List.mem_cons.2 (Or.inl rfl)),
      results, hres, entry.1, entry.2, he, rfl, rfl, rfl⟩

theorem load_results_origin (files : List (Option Artifact)) :
    ∀ e ∈ load_results files, ∀ ps ∈ e.2, StatusOrigin files e.1 ps.1 ps.2 := by
  rw [load_results]
  exact foldl_load_step_origin files files [] (fun f hf => hf) (by simp)

theorem normStatus_spec (raw : String) :
    (pyLower (pyStrip raw) ∈ ALLOWED_STATUSES ∧
      normStatus raw = pyLower (pyStrip raw)) ∨
    (pyLower (pyStrip raw) ∉ ALLOWED_STATUSES ∧ normStatus raw = "fail") := by
  by_cases h : pyLower (pyStrip raw) ∈ ALLOWED_STATUSES
  · refine Or.inl ⟨h, ?_⟩
    show (if pyLower (pyStrip raw) ∈ ALLOWED_STATUSES then pyLower (pyStrip raw)
      else "fail") = pyLower (pyStrip raw)
    rw [if_pos h]
  · refine Or.inr ⟨h, ?_⟩
    show (if pyLower (pyStrip raw) ∈ ALLOWED_STATUSES then pyLower (pyStrip raw)
      else "fail") = "fail"
    rw [if_neg h]

/-! ### Claim theorems -/

/-- C1: for every run with a valid target version, the merged row for that
version starts from its existing parsed row with every platform defaulting to
`not-run`, is overlaid with the statuses loaded from artifacts for that
version, and has its last-tested field set to the current UTC timestamp; a
target version absent from the existing table with no matching artifacts gets
`not-run` for all five platforms plus a fresh timestamp. -/
theorem claim1_merge (inp : RunInput) (now : String)
    (h : isVersionString (normalize_version inp.version_arg) = true) :
    ∃ m : Row,
      run inp now = Except.ok (dinsert (normalize_version inp.version_arg) m
        (parseTableFile inp.table_lines)) ∧
      dlookup (normalize_version inp.version_arg)
        (dinsert (normalize_version inp.version_arg) m
          (parseTableFile inp.table_lines)) = some m ∧
      m.last_tested_utc = now ∧
      (∀ p ∈ PLATFORMS, Row.get m p "not-run" =
        (dlookup p ((dlookup (normalize_version inp.version_arg)
            (load_results inp.artifacts)).getD [])).getD
          ((Option.map (fun r => Row.get r p "not-run")
            (dlookup (normalize_version inp.version_arg)
              (parseTableFile inp.table_lines))).getD "not-run")) ∧
      ((dlookup (normalize_version inp.version_arg)
          (parseTableFile inp.table_lines) = none ∧
        dlookup (normalize_version inp.version_arg)
          (load_results inp.artifacts) = none) →
        ∀ p ∈ PLATFORMS, Row.get m p "not-run" = "not-run") := by
  have hupd : (∀ e ∈ ((dlookup (normalize_version inp.version_arg)
      (load_results inp.artifacts)).getD []), e.1 ∈ PLATFORMS) ∧
      (keysOf ((dlookup (normalize_version inp.version_arg)
        (load_results inp.artifacts)).getD [])).Nodup := by
    cases hd : dlookup (normalize_version inp.version_arg)
        (load_results inp.artifacts) with
    | none => exact ⟨by simp, List.nodup_nil⟩
    | some inner =>
      have := ((load_results_good inp.artifacts).2 _ (dlookup_some_mem hd)).2
      exact ⟨fun e he => (this.2 e he).1, this.1⟩
  have hget : ∀ p ∈ PLATFORMS,
      Row.get (merged_row (dlookup (normalize_version inp.version_arg)
          (parseTableFile inp.table_lines))
        ((dlookup (normalize_version inp.version_arg)
          (load_results inp.artifacts)).getD []) now) p "not-run" =
      (dlookup p ((dlookup (normalize_version inp.version_arg)
          (load_results inp.artifacts)).getD [])).getD
        ((Option.map (fun r => Row.get r p "not-run")
          (dlookup (normalize_version inp.version_arg)
            (parseTableFile inp.table_lines))).getD "not-run") := by
    intro p hp
    exact get_merged_row _ _ now hp hupd.1 hupd.2
  refine ⟨merged_row (dlookup (normalize_version inp.version_arg)
      (parseTableFile inp.table_lines))
    ((dlookup (normalize_version inp.version_arg)
      (load_results inp.artifacts)).getD []) now, ?_, ?_, rfl, hget, ?_⟩
  · rw [run, if_pos h]
  · exact dlookup_dinsert_self _ _ _
  · intro hnone p hp
    have hthis := hget p hp
    rw [hnone.1, hnone.2] at hthis ⊢
    simpa [dlookup] using hthis

/-- C1 witness: a run on version `1.2.3` with no table and no artifacts
produces a row stamped with the timestamp and all platforms `not-run`. -/
theorem claim1_witness :
    isVersionString (normalize_version "1.2.3") = true ∧
    ∃ m : Row, m.last_tested_utc = "T" ∧ Row.get m "linux" "not-run" = "not-run" := by
  refine ⟨by decide, ?_⟩
  obtain ⟨m, _, _, hlast, _, hdef⟩ :=
    claim1_merge ⟨"1.2.3", none, []⟩ "T" (by decide)
  exact ⟨m, hlast, hdef ⟨rfl, rfl⟩ "linux" (by decide)⟩

/-- C2: every status stored by `load_results` comes from a raw artifact
entry: it is that raw status stripped and normalized to lowercase when the
result lies in `{pass, fail, not-run}`, and is coerced to `fail` otherwise;
consequently every stored status is a lowercase member of the allowed set,
and a `linux` artifact with `{"1.2.3": "PASS"}` yields row `1.2.3` with
column linux = `pass`. -/
theorem claim2_status_normalization :
    (∀ (files : List (Option Artifact)) (ver : String)
      (inner : List (String × String)) (p s : String),
      (ver, inner) ∈ load_results files → (p, s) ∈ inner →
      ∃ a : Artifact, some a ∈ files ∧
        ∃ results : List (String × String), a.results = some results ∧
          ∃ rawVer rawStatus : String, (rawVer, rawStatus) ∈ results ∧
            pyStrip a.platform = p ∧ normalize_version rawVer = ver ∧
            ((pyLower (pyStrip rawStatus) ∈ ALLOWED_STATUSES ∧
              s = pyLower (pyStrip rawStatus)) ∨
             (pyLower (pyStrip rawStatus) ∉ ALLOWED_STATUSES ∧ s = "fail"))) ∧
    (∀ (files : List (Option Artifact)) (ver : String)
      (inner : List (String × String)) (p s : String),
      (ver, inner) ∈ load_results files → (p, s) ∈ inner →
      s ∈ ALLOWED_STATUSES ∧ pyLower s = s) ∧
    load_results [some ⟨"linux", some [("1.2.3", "PASS")]⟩] =
      [("1.2.3", [("linux", "pass")])] := by
  refine ⟨?_, ?_, rfl⟩
  · intro files ver inner p s hm hin
    obtain ⟨a, hmem, results, hres, rawVer, rawStatus, hinr, hp, hv, hs⟩ :=
      load_results_origin files (ver, inner) hm (p, s) hin
    refine ⟨a, hmem, results, hres, rawVer, rawStatus, hinr, hp, hv, ?_⟩
    have hs' : s = normStatus rawStatus := hs
    rw [hs']
    rcases normStatus_spec rawStatus with ⟨h1, h2⟩ | ⟨h1, h2⟩
    · exact Or.inl ⟨h1, h2⟩
    · exact Or.inr ⟨h1, h2⟩
  · intro files ver inner p s hm hin
    have h1 := (((load_results_good files).2 (ver, inner) hm).2.2 (p, s) hin).2
    refine ⟨h1, ?_⟩
    have : s = "pass" ∨ s = "fail" ∨ s = "not-run" := by
      simpa [ALLOWED_STATUSES] using h1
    rcases this with rfl | rfl | rfl <;> rfl

/-- C2 witness: `"oops"` lies outside the allowed set and is stored as
`fail`, a lowercase member of the allowed set. -/
theorem claim2_witness :
    ("2.0", [("windows", "fail")]) ∈
      load_results [some (Artifact.mk "windows" (some [("2.0", "oops")]))] ∧
    pyLower (pyStrip "oops") ∉ ALLOWED_STATUSES ∧
    "fail" ∈ ALLOWED_STATUSES ∧ pyLower "fail" = "fail" := by
  have hmem : ("2.0", [("windows", "fail")]) ∈
      load_results [some (Artifact.mk "windows" (some [("2.0", "oops")]))] := by
    decide
  have h2 := claim2_status_normalization.2.1
    [some (Artifact.mk "windows" (some [("2.0", "oops")]))] "2.0"
    [("windows", "fail")] "windows" "fail" hmem (by decide)
  exact ⟨hmem, by decide, h2.1, h2.2⟩

/-- C3: an invocation whose `--version`, after normalization, does not match
the dotted-numeric pattern exits non-zero with an error message before the
table is read, merged or written; a valid version yields a successful run
(exit code 0); `--version abc` in particular fails. -/
theorem claim3_invalid_version_fatal :
    (∀ (inp : RunInput) (now : String),
      isVersionString (normalize_version inp.version_arg) = false →
        run inp now = Except.error ("Invalid version: " ++ inp.version_arg)) ∧
    (∀ (inp : RunInput) (now : String),
      isVersionString (normalize_version inp.version_arg) = true →
        ∃ rows, run inp now = Except.ok rows) ∧
    (∀ (t : Option (List String)) (arts : List (Option Artifact)) (now : String),
      run ⟨"abc", t, arts⟩ now = Except.error "Invalid version: abc") := by
  refine ⟨?_, ?_, ?_⟩
  · intro inp now h
    rw [run, if_neg (by simp [h])]
  · intro inp now h
    exact ⟨_, by rw [run, if_pos h]⟩
  · intro t arts now
    have h : ¬(isVersionString (normalize_version
        (RunInput.mk "abc" t arts).version_arg) = true) := by
      intro hc
      rw [show (RunInput.mk "abc" t arts).version_arg = "abc" from rfl] at hc
      exact absurd hc (by decide)
    rw [run, if_neg h, show (RunInput.mk "abc" t arts).version_arg = "abc" from rfl]
    rfl

/-- C3 witness: `--version abc` errors out; `--version 1.2.3` succeeds. -/
theorem claim3_witness :
    run ⟨"abc", none, []⟩ "T" = Except.error "Invalid version: abc" ∧
    ∃ rows, run ⟨"1.2.3", none, []⟩ "T" = Except.ok rows :=
  ⟨claim3_invalid_version_fatal.2.2 none [] "T",
   claim3_invalid_version_fatal.2.1 ⟨"1.2.3", none, []⟩ "T" (by decide)⟩

/-- C4: `write_table` emits the rows sorted by version in descending numeric
order under dot-separated component comparison; `1.10.0` is emitted above
`1.9.0`. -/
theorem claim4_write_sorted_descending :
    (∀ rows : List (String × Row), (sortRows rows).Pairwise
      (fun a b => keyLT (version_sort_key a.1) (version_sort_key b.1) = false)) ∧
    write_table
      [("1.9.0", ⟨"pass", "fail", "not-run", "not-run", "not-run", "T1"⟩),
       ("1.10.0", ⟨"fail", "pass", "not-run", "not-run", "not-run", "T2"⟩)] =
      ["# Codex Compatibility", "",
       "Auto-updated by `.github/workflows/codex-release-monitor.yml`.", "",
       "| Codex version | linux | mac | windows | rockylinux8 | ubuntu20.04 | last_tested_utc |",
       "| --- | --- | --- | --- | --- | --- | --- |",
       "| 1.10.0 | fail | pass | not-run | not-run | not-run | T2 |",
       "| 1.9.0 | pass | fail | not-run | not-run | not-run | T1 |"] := by
  constructor
  · intro rows
    refine (sortRows_pairwise rows).imp ?_
    intro a b hab
    rwa [descBefore, Bool.not_eq_true'] at hab
  · decide

/-- C5: parsing a table, then re-writing it, then parsing again, gives the
same rows (same version keys, same cells) as the first parse — re-writing
without new results reproduces the table. -/
theorem claim5_parse_write_idempotent (lines : List String) (k : String) :
    dlookup k (parse_table (write_table (parse_table lines))) =
      dlookup k (parse_table lines) :=
  parse_write (parse_table_good lines) k

/-- C6: a result artifact whose platform is outside the allow-list
contributes nothing: removing it from the file list leaves `load_results`
unchanged. -/
theorem claim6_unknown_platform_ignored (pre post : List (Option Artifact))
    (a : Artifact) (h : pyStrip a.platform ∉ PLATFORMS) :
    load_results (pre ++ some a :: post) = load_results (pre ++ post) := by
  rw [load_results, load_results, List.foldl_append, List.foldl_append,
    List.foldl_cons]
  have hstep : ∀ updates : Updates, load_step updates (some a) = updates := by
    intro updates
    rw [load_step, if_neg h]
  rw [hstep]

/-- C6 witness: a `solaris` artifact is ignored entirely. -/
theorem claim6_witness :
    pyStrip (Artifact.mk "solaris" (some [("1.2.3", "pass")])).platform ∉
      PLATFORMS ∧
    load_results [some (Artifact.mk "solaris" (some [("1.2.3", "pass")]))] =
      load_results [] :=
  ⟨by decide,
   claim6_unknown_platform_ignored [] [] ⟨"solaris", some [("1.2.3", "pass")]⟩
     (by decide)⟩

/-- C7: a results file that does not parse as JSON is skipped silently and
processing continues: removing it from the file list leaves `load_results`
unchanged, wherever it sits. -/
theorem claim7_malformed_json_skipped (pre post : List (Option Artifact)) :
    load_results (pre ++ none :: post) = load_results (pre ++ post) := by
  rw [load_results, load_results, List.foldl_append, List.foldl_append,
    List.foldl_cons]
  rfl

/-- C8: every key of the row mapping — after parsing the table, after loading
results, and after the merge — matches the dotted-numeric pattern, and rows
are uniquely keyed by version. -/
theorem claim8_version_key_invariant :
    (∀ lines : List String,
      (∀ e ∈ parse_table lines, isVersionString e.1 = true) ∧
      (keysOf (parse_table lines)).Nodup) ∧
    (∀ files : List (Option Artifact),
      (∀ e ∈ load_results files, isVersionString e.1 = true) ∧
      (keysOf (load_results files)).Nodup) ∧
    (∀ (inp : RunInput) (now : String) (rows' : List (String × Row)),
      run inp now = Except.ok rows' →
      (∀ e ∈ rows', isVersionString e.1 = true) ∧ (keysOf rows').Nodup) := by
  refine ⟨?_, ?_, ?_⟩
  · intro lines
    exact ⟨fun e he => ((parse_table_good lines).2 e he).1,
      (parse_table_good lines).1⟩
  · intro files
    exact ⟨fun e he => ((load_results_good files).2 e he).1,
      (load_results_good files).1⟩
  · intro inp now rows' hrun
    rw [run] at hrun
    by_cases h : isVersionString (normalize_version inp.version_arg) = true
    · rw [if_pos h] at hrun
      injection hrun with hrun
      rw [← hrun]
      constructor
      · intro e he
        rcases mem_dinsert he with he' | he'
        · rw [he']
          exact h
        · exact ((parseTableFile_good inp.table_lines).2 e he').1
      · exact keysOf_dinsert_nodup _ _ (parseTableFile_good inp.table_lines).1
    · rw [if_neg h] at hrun
      exact absurd hrun (by simp)

/-- C8 witness: the merged rows of a concrete successful run are well-keyed. -/
theorem claim8_witness :
    run ⟨"1.2.3", none, []⟩ "T" = Except.ok
      [("1.2.3", (⟨"not-run", "not-run", "not-run", "not-run", "not-run",
        "T"⟩ : Row))] ∧
    (keysOf [("1.2.3", (⟨"not-run", "not-run", "not-run", "not-run", "not-run",
      "T"⟩ : Row))]).Nodup :=
  ⟨rfl, (claim8_version_key_invariant.2.2 ⟨"1.2.3", none, []⟩ "T" _ rfl).2⟩

/-- C9: a run mutates only the target version's row: every other key of the
written row mapping looks up to exactly what the existing table parsed to,
even when artifacts carry statuses for other versions. -/
theorem claim9_frame (inp : RunInput) (now : String)
    (rows' : List (String × Row)) (hrun : run inp now = Except.ok rows')
    (k : String) (hk : k ≠ normalize_version inp.version_arg) :
    dlookup k rows' = dlookup k (parseTableFile inp.table_lines) := by
  rw [run] at hrun
  by_cases h : isVersionString (normalize_version inp.version_arg) = true
  · rw [if_pos h] at hrun
    injection hrun with hrun
    rw [← hrun]
    exact dlookup_dinsert_ne hk _ _
  · rw [if_neg h] at hrun
    exact absurd hrun (by simp)

/-- C9 witness: with target `1.2.3`, the key `9.9` is looked up unchanged. -/
theorem claim9_witness :
    dlookup "9.9" [("1.2.3", (⟨"not-run", "not-run", "not-run", "not-run",
      "not-run", "T"⟩ : Row))] = dlookup "9.9" (parseTableFile none) :=
  claim9_frame ⟨"1.2.3", none, []⟩ "T"
    [("1.2.3", ⟨"not-run", "not-run", "not-run", "not-run", "not-run", "T"⟩)]
    rfl "9.9" (by decide)

/-- C10 counterexample: `normalize_version` is not idempotent as claimed —
on `"v 1.2.3"` it yields `" 1.2.3"`, and normalizing again strips the
leading space. -/
theorem claim10_cex :
    ¬(normalize_version (normalize_version "v 1.2.3") =
      normalize_version "v 1.2.3") := by decide

/-- C10 (amended): normalization strips surrounding whitespace and then all
leading `v` characters; it is idempotent on every input whose normalized form
matches the dotted-numeric version pattern (in particular on every version
the CLI accepts and every version key the script stores), and `--version
v1.2.3` and `--version 1.2.3` drive identical runs. -/
theorem claim10_normalization :
    normalize_version " v1.2.3 " = "1.2.3" ∧
    normalize_version "vv2.0" = "2.0" ∧
    (∀ v : String, isVersionString (normalize_version v) = true →
      normalize_version (normalize_version v) = normalize_version v) ∧
    (∀ (t : Option (List String)) (arts : List (Option Artifact)) (now : String),
      run ⟨"v1.2.3", t, arts⟩ now = run ⟨"1.2.3", t, arts⟩ now) ∧
    normalize_version "v1.2.3" = normalize_version "1.2.3" := by
  refine ⟨by decide, by decide, ?_, ?_, by decide⟩
  · intro v hv
    exact normalize_version_fixed hv
  · intro t arts now
    rfl

/-- C10 witness: idempotence on the accepted input `v2.0`. -/
theorem claim10_witness :
    isVersionString (normalize_version "v2.0") = true ∧
    normalize_version (normalize_version "v2.0") = normalize_version "v2.0" :=
  ⟨by decide, claim10_normalization.2.2.1 "v2.0" (by decide)⟩

end CodexSync
